import Mathlib

/-! # Verification of the `models` helpers of the rack control plane

Shallow embedding of `src/web/models/helpers.go` and `src/api/models/service-s3.go`:

* `humanStatus`          : the stack status normaliser,
* `divideSubnet`         : the CIDR divider,
* `nextAvailableSubnet`  : the subnet allocator, with `stackTags`,
* `flattenTags`, `createStack`, `Service.CreateS3` : the provisioning requests,
* `upperName`            : the template helper `upper`.

Go strings are embedded as Lean `String`s.  Every character the code inspects
(`'.'`, the decimal digits) is ASCII, so working on characters instead of bytes
does not change any result; the one function that slices a string by byte,
`upperName`, works on byte sequences.  A Go function that can abort with a run-time
panic returns an `Outcome`; a Go `(value, error)` pair is a Lean pair whose
second component is `none` for a `nil` error.
-/

namespace Rack

set_option linter.unusedVariables false

/-! ## Go run-time model -/

/-- A Go `error` value, identified with its message (`fmt.Errorf(msg)`). -/
abbrev GoError := String

/-- Result of running a Go function body: it returns, or the run time panics. -/
inductive Outcome (α : Type) where
  | ret (v : α)
  | panic (msg : String)
  deriving DecidableEq, Repr

/-- A Go `map[string]string`: at most one entry per key.  The entries are listed in
the order in which a `range` loop over the map visits them, an order Go leaves
unspecified, so every order is a possible value. -/
abbrev GoMap := List (String × String)

/-- Go `m[k] = v`: overwrite the entry of `k`, or add one. -/
def mapSet : GoMap → String → String → GoMap
  | [], k, v => [(k, v)]
  | (k', v') :: m, k, v => if k' = k then (k, v) :: m else (k', v') :: mapSet m k v

/-- Go `m[k]`: the value stored under `k`, or the zero value `""`. -/
def mapGet : GoMap → String → String
  | [], _ => ""
  | (k', v') :: m, k => if k' = k then v' else mapGet m k

/-! ## `humanStatus` -/

/-- Value returned by `humanStatus` together with the text it printed. -/
structure StatusResult where
  value : String
  stdout : String
  deriving DecidableEq, Repr

/-- Embedding of `humanStatus` (helpers.go:111-141): a `switch` on the raw code;
the `default` arm prints `unknown status: <code>\n` and returns `unknown`. -/
def humanStatus (original : String) : StatusResult :=
  if original = "" then ⟨"new", ""⟩
  else if original = "CREATE_IN_PROGRESS" then ⟨"creating", ""⟩
  else if original = "CREATE_COMPLETE" then ⟨"running", ""⟩
  else if original = "DELETE_FAILED" then ⟨"running", ""⟩
  else if original = "DELETE_IN_PROGRESS" then ⟨"deleting", ""⟩
  else if original = "ROLLBACK_IN_PROGRESS" then ⟨"rollback", ""⟩
  else if original = "ROLLBACK_COMPLETE" then ⟨"failed", ""⟩
  else if original = "UPDATE_IN_PROGRESS" then ⟨"updating", ""⟩
  else if original = "UPDATE_COMPLETE_CLEANUP_IN_PROGRESS" then ⟨"updating", ""⟩
  else if original = "UPDATE_COMPLETE" then ⟨"running", ""⟩
  else if original = "UPDATE_ROLLBACK_IN_PROGRESS" then ⟨"rollback", ""⟩
  else if original = "UPDATE_ROLLBACK_COMPLETE" then ⟨"failed", ""⟩
  else ⟨"unknown", "unknown status: " ++ original ++ "\n"⟩

/-- The twelve raw lifecycle codes of the table in section 4.2 of the spec. -/
def documentedCodes : List String :=
  ["", "CREATE_IN_PROGRESS", "CREATE_COMPLETE", "DELETE_FAILED", "DELETE_IN_PROGRESS",
   "ROLLBACK_IN_PROGRESS", "ROLLBACK_COMPLETE", "UPDATE_IN_PROGRESS",
   "UPDATE_COMPLETE_CLEANUP_IN_PROGRESS", "UPDATE_COMPLETE",
   "UPDATE_ROLLBACK_IN_PROGRESS", "UPDATE_ROLLBACK_COMPLETE"]

/-- The closed enumeration `ApplicationStatus` of the spec, as strings. -/
def applicationStatuses : List String :=
  ["new", "creating", "running", "updating", "deleting", "rollback", "failed", "unknown"]

/-! ## Strings and formatting -/

/-- The verb `%d` of `fmt.Sprintf` on a non-negative integer: its decimal numeral. -/
def fmtInt (n : Nat) : String := Nat.repr n

/-- Cut a character sequence at every occurrence of `sep`; the pieces exclude `sep`
and there is always at least one piece. -/
def splitOnChar (sep : Char) : List Char → List (List Char)
  | [] => [[]]
  | c :: cs =>
    if c = sep then [] :: splitOnChar sep cs
    else
      match splitOnChar sep cs with
      | [] => [[c]]
      | p :: ps => (c :: p) :: ps

/-- Go `strings.Split(s, sep)` for a separator of one character. -/
def stringsSplit (s : String) (sep : Char) : List String :=
  (splitOnChar sep s.data).map String.mk

/-! ## `divideSubnet` -/

/-- The string `fmt.Sprintf("%s.%s.%s.%d/27", p0, p1, p2, n)`. -/
def sprintfSub (p0 p1 p2 : String) (n : Nat) : String :=
  p0 ++ "." ++ p1 ++ "." ++ p2 ++ "." ++ fmtInt n ++ "/27"

/-- The loop `for i := 0; i < num; i++ { div[i] = Sprintf(..., parts[0], parts[1],
parts[2], i*32) }` of `divideSubnet`, with `todo = num - i` iterations left.
Reading `parts[0]`, `parts[1]` or `parts[2]` beyond the length of `parts` panics. -/
def divideLoop (parts : List String) : Nat → Nat → List String → Outcome (List String)
  | 0, _, div => .ret div
  | todo + 1, i, div =>
    match parts.get? 0, parts.get? 1, parts.get? 2 with
    | some p0, some p1, some p2 =>
      divideLoop parts todo (i + 1) (div.set i (sprintfSub p0 p1 p2 (i * 32)))
    | _, _, _ => .panic "index out of range"

/-- Embedding of `divideSubnet` (helpers.go:76-89).  The slice result is `none`
for Go's `nil` and `some l` for an allocated slice; `make([]string, num)` panics on
a negative length. -/
def divideSubnet (base : String) (num : Int) :
    Outcome (Option (List String) × Option GoError) :=
  if num > 4 then .ret (none, some "too many divisions")
  else if num < 0 then .panic "makeslice: len out of range"
  else
    let div := List.replicate num.toNat ""
    let parts := stringsSplit base '.'
    match divideLoop parts num.toNat 0 div with
    | .ret div => .ret (some div, none)
    | .panic msg => .panic msg

/-! ## Stacks and `nextAvailableSubnet` -/

/-- A `cloudformation.Tag`. -/
structure Tag where
  Key : String
  Value : String
  deriving DecidableEq, Repr

/-- A `cloudformation.Stack`, reduced to the field the helpers read. -/
structure Stack where
  Tags : List Tag
  deriving DecidableEq, Repr

/-- Embedding of `stackTags` (helpers.go:217-225). -/
def stackTags (stack : Stack) : GoMap :=
  stack.Tags.foldl (fun tags tag => mapSet tags tag.Key tag.Value) []

/-- The string `fmt.Sprintf("10.0.%d.0/24", i)`. -/
def candidate (i : Nat) : String :=
  "10.0." ++ fmtInt i ++ ".0/24"

/-- The slice `available` after its filling loop: entry `i-1` is `candidate i`,
for `i = 1 .. 254`. -/
def available : List String :=
  (List.range' 1 254).map candidate

/-- The loop over `res.Stacks` that appends the `subnet` tag of each stack whose
`type` tag is `app`. -/
def usedLoop : List Stack → List String → List String
  | [], used => used
  | stack :: rest, used =>
    let tags := stackTags stack
    if mapGet tags "type" = "app" then usedLoop rest (used ++ [mapGet tags "subnet"])
    else usedLoop rest used

/-- The inner loop `for _, u := range used { if a == u { found = true; break } }`. -/
def isFound (a : String) : List String → Bool
  | [] => false
  | u :: rest => if a = u then true else isFound a rest

/-- The outer loop over `available`, followed by the final error return. -/
def searchLoop : List String → List String → String × Option GoError
  | [], _ => ("", some "no available subnets")
  | a :: rest, used => if isFound a used then searchLoop rest used else (a, none)

/-- Embedding of `nextAvailableSubnet` (helpers.go:143-181).  The second argument is
what `CloudFormation.DescribeStacks("", "")` returned: an error or the stacks. -/
def nextAvailableSubnet (vpc : String) (described : Except GoError (List Stack)) :
    String × Option GoError :=
  match described with
  | .error err => ("", some err)
  | .ok listing => searchLoop available (usedLoop listing [])

/-- The value of tag `key` of a stack as the allocator reads it: `stackTags(stack)[key]`. -/
def tagOf (stack : Stack) (key : String) : String :=
  mapGet (stackTags stack) key

/-- A stack tagged `type=app`, `subnet=<block>`, as a provisioning call creates. -/
def appStack (block : String) : Stack :=
  ⟨[⟨"type", "app"⟩, ⟨"subnet", block⟩]⟩

/-- The used-set of the spec: `u` is the `subnet` tag of some stack of the listing
whose `type` tag is `app`. -/
def Reserved (listing : List Stack) (u : String) : Prop :=
  ∃ s ∈ listing, tagOf s "type" = "app" ∧ tagOf s "subnet" = u

instance (listing : List Stack) (u : String) : Decidable (Reserved listing u) :=
  inferInstanceAs (Decidable (∃ s ∈ listing, tagOf s "type" = "app" ∧ tagOf s "subnet" = u))

/-- Allocate-then-provision, `n` times in a row: every block the allocator issues is
recorded, and a `type=app` stack tagged with it joins the listing before the next
allocation.  The run stops at the first allocation error. -/
def issueBlocks (vpc : String) : Nat → List Stack → List String
  | 0, _ => []
  | n + 1, listing =>
    match nextAvailableSubnet vpc (.ok listing) with
    | (a, none) => a :: issueBlocks vpc n (listing ++ [appStack a])
    | (_, some _) => []

/-! ## Address blocks

The meaning of a CIDR string `a.b.c.d/len`, used to state the range properties. -/

/-- An IPv4 address block: four octets and a prefix length. -/
structure Block where
  a : Nat
  b : Nat
  c : Nat
  d : Nat
  len : Nat
  deriving DecidableEq, Repr

/-- Value of a decimal digit. -/
def digitVal (ch : Char) : Option Nat :=
  if 48 ≤ ch.toNat ∧ ch.toNat ≤ 57 then some (ch.toNat - 48) else none

/-- Read digits left to right onto the accumulator. -/
def parseDigits : List Char → Nat → Option Nat
  | [], acc => some acc
  | ch :: cs, acc =>
    match digitVal ch with
    | some v => parseDigits cs (acc * 10 + v)
    | none => none

/-- A non-empty run of decimal digits, read as a number. -/
def parseNat (cs : List Char) : Option Nat :=
  match cs with
  | [] => none
  | _ :: _ => parseDigits cs 0

/-- Read `a.b.c.d/len` with octets below 256 and `len ≤ 32`. -/
def parseBlock (s : String) : Option Block :=
  match splitOnChar '/' s.data with
  | [addr, len] =>
    match splitOnChar '.' addr with
    | [a, b, c, d] =>
      match parseNat a, parseNat b, parseNat c, parseNat d, parseNat len with
      | some a, some b, some c, some d, some len =>
        if a < 256 ∧ b < 256 ∧ c < 256 ∧ d < 256 ∧ len ≤ 32 then some ⟨a, b, c, d, len⟩
        else none
      | _, _, _, _, _ => none
    | _ => none
  | _ => none

/-- The address written `a.b.c.d`, as a 32-bit number. -/
def Block.addr (B : Block) : Nat :=
  ((B.a * 256 + B.b) * 256 + B.c) * 256 + B.d

/-- Number of addresses of the block. -/
def Block.size (B : Block) : Nat :=
  2 ^ (32 - B.len)

/-- First address of the range: the address with its host bits cleared. -/
def Block.lo (B : Block) : Nat :=
  B.addr / B.size * B.size

/-- Last address of the range. -/
def Block.hi (B : Block) : Nat :=
  B.lo + B.size - 1

/-- The two address ranges share no address. -/
def Block.Disjoint (A B : Block) : Prop :=
  A.hi < B.lo ∨ B.hi < A.lo

/-- The range of `A` lies inside the range of `B`. -/
def Block.Within (A B : Block) : Prop :=
  B.lo ≤ A.lo ∧ A.hi ≤ B.hi

instance (A B : Block) : Decidable (A.Disjoint B) :=
  inferInstanceAs (Decidable (A.hi < B.lo ∨ B.hi < A.lo))

instance (A B : Block) : Decidable (A.Within B) :=
  inferInstanceAs (Decidable (B.lo ≤ A.lo ∧ A.hi ≤ B.hi))

/-- First address of the `/24` network `a.b.c.0` that holds the block's address. -/
def Block.net24 (B : Block) : Nat :=
  ((B.a * 256 + B.b) * 256 + B.c) * 256

/-- The canonical text of a block: its octets and prefix length in decimal, without
padding. -/
def Block.render (B : Block) : String :=
  fmtInt B.a ++ "." ++ fmtInt B.b ++ "." ++ fmtInt B.c ++ "." ++ fmtInt B.d ++ "/" ++ fmtInt B.len

/-! ## Tag maps, `flattenTags` and `createStack` -/

/-- Go `v, ok := m[k]`: the value stored under `k`, if there is an entry. -/
def mapFind : GoMap → String → Option String
  | [], _ => none
  | (k', v') :: m, k => if k' = k then some v' else mapFind m k

/-- The keys of a map, in the order of its entries. -/
def mapKeys (m : GoMap) : List String :=
  m.map Prod.fst

/-- The invariant of a Go map: no key has two entries. -/
def mapWF (m : GoMap) : Prop :=
  (mapKeys m).Nodup

instance (m : GoMap) : Decidable (mapWF m) :=
  inferInstanceAs (Decidable (mapKeys m).Nodup)

/-- Embedding of `flattenTags` (helpers.go:91-99). -/
def flattenTags (tags : List Tag) : GoMap :=
  tags.foldl (fun f tag => mapSet f tag.Key tag.Value) []

/-- A `cloudformation.Parameter`. -/
structure Parameter where
  ParameterKey : String
  ParameterValue : String
  deriving DecidableEq, Repr

/-- A `cloudformation.CreateStackParams`, reduced to the fields `createStack` sets. -/
structure CreateStackParams where
  StackName : String
  TemplateBody : String
  Parameters : List Parameter
  Tags : List Tag
  deriving DecidableEq, Repr

/-- Embedding of `createStack` (helpers.go:57-74).  `remote` is
`CloudFormation.CreateStack` reduced to the error it returns.  The result is the
sequence of requests handed to `remote`, and the error `createStack` returns. -/
def createStack (formation name : String) (params tags : GoMap)
    (remote : CreateStackParams → Option GoError) :
    List CreateStackParams × Option GoError :=
  let sp : CreateStackParams := ⟨name, formation, [], []⟩
  let sp := params.foldl
    (fun sp kv => { sp with Parameters := sp.Parameters ++ [⟨kv.1, kv.2⟩] }) sp
  let sp := tags.foldl
    (fun sp kv => { sp with Tags := sp.Tags ++ [⟨kv.1, kv.2⟩] }) sp
  let err := remote sp
  ([sp], err)

/-! ## `Service.CreateS3` -/

/-- A `cloudformation.CreateStackInput` of the AWS SDK, reduced to the two fields
`CreateS3` sets; both are string pointers, `none` for `nil`. -/
structure CreateStackInput where
  StackName : Option String
  TemplateBody : Option String
  deriving DecidableEq, Repr

/-- Embedding of `Service.CreateS3` (service-s3.go:10-25).  The type `Service`, its
method `StackName` and the function `buildTemplate` are declared outside the embedded
files: `σ` stands for `Service`, `typeOf s` for the field `s.Type`, `stackName s` for
`s.StackName()`, and `buildTemplate name section input` for the renderer, whose third
argument is the `nil` interface value here. -/
def Service.CreateS3 {σ : Type} (typeOf stackName : σ → String)
    (buildTemplate : String → String → Option Unit → String × Option GoError) (s : σ) :
    Option CreateStackInput × Option GoError :=
  let input : Option Unit := none
  match buildTemplate ("service/" ++ typeOf s) "service" input with
  | (_, some err) => (none, some err)
  | (formation, none) => (some ⟨some (stackName s), some formation⟩, none)

/-! ## `upperName`

`upperName` slices its argument by byte, so names are byte sequences here. -/

/-- A Go string as the sequence of its bytes, each below 256. -/
abbrev GoBytes := List Nat

/-- The UTF-8 bytes of a string. -/
def bytesOf (s : String) : GoBytes :=
  (s.data.map String.utf8EncodeChar).flatten.map UInt8.toNat

/-- Go `strings.ToUpper` on a string of one byte `b`: an ASCII lower-case letter
becomes the upper-case letter, any other ASCII byte is kept.  A lone byte from `0x80`
up is not valid UTF-8; `nonAscii b` stands for what the library returns for it. -/
def toUpperByte (nonAscii : Nat → GoBytes) (b : Nat) : GoBytes :=
  if 97 ≤ b ∧ b ≤ 122 then [b - 32]
  else if b < 128 then [b]
  else nonAscii b

/-- Embedding of `upperName` (helpers.go:262-264):
`strings.ToUpper(name[0:1]) + name[1:]`; slicing `[0:1]` an empty string panics. -/
def upperName (nonAscii : Nat → GoBytes) (name : GoBytes) : Outcome GoBytes :=
  match name with
  | [] => .panic "slice bounds out of range [:1] with length 0"
  | b :: rest => .ret (toUpperByte nonAscii b ++ rest)

/-- The template helper `upper` of `templateHelpers` (helpers.go:256-258). -/
def templateUpper (nonAscii : Nat → GoBytes) (s : GoBytes) : Outcome GoBytes :=
  upperName nonAscii s

/-- What `strings.ToUpper` returns for a lone non-ASCII byte since `strings.Map`
replaces invalid UTF-8: the encoding `EF BF BD` of U+FFFD. -/
def replaceInvalid (_b : Nat) : GoBytes :=
  [239, 191, 189]

/-- What `strings.ToUpper` returned for a lone non-ASCII byte in the Go releases
whose `strings.Map` left an unchanged string alone: the byte itself. -/
def keepInvalid (b : Nat) : GoBytes :=
  [b]

/-! ## Package state

What a function of the package can read or change besides its arguments: the text
written to standard output and the remote stack service behind the package variable
`CloudFormation`.  A function run in a world returns an outcome and leaves a world. -/

/-- The state outside the arguments of a call. -/
structure World where
  stdout : String
  remote : Except GoError (List Stack)

/-- A Go function body run against the package state. -/
abbrev GoM (α : Type) : Type :=
  World → Outcome α × World

/-- A statement that completes with value `a` and touches nothing. -/
def GoM.done {α : Type} (a : α) : GoM α :=
  fun w => (.ret a, w)

/-- A run-time panic: the rest of the body is skipped. -/
def GoM.fail {α : Type} (msg : String) : GoM α :=
  fun w => (.panic msg, w)

/-- Sequencing: run `m`, then `f` on its value in the world `m` left; a panic of `m`
ends the run. -/
def GoM.andThen {α β : Type} (m : GoM α) (f : α → GoM β) : GoM β :=
  fun w =>
    match m w with
    | (.ret a, w') => f a w'
    | (.panic msg, w') => (.panic msg, w')

/-- Go `make([]string, n)`: a slice of `n` empty strings, a panic for negative `n`. -/
def goMake (n : Int) : GoM (List String) :=
  if n < 0 then GoM.fail "makeslice: len out of range"
  else GoM.done (List.replicate n.toNat "")

/-- Go `xs[i]`: the element, or a panic beyond the length. -/
def goIndex (xs : List String) (i : Nat) : GoM String :=
  match xs.get? i with
  | some x => GoM.done x
  | none => GoM.fail "index out of range"

/-- Go `fmt.Printf` of an already formatted text: it is appended to standard output. -/
def fmtPrintf (text : String) : GoM Unit :=
  fun w => (.ret (), { w with stdout := w.stdout ++ text })

/-- The loop of `divideSubnet` (helpers.go:84-86) run against the package state,
with `todo = num - i` iterations left. -/
def divideLoopM (parts : List String) : Nat → Nat → List String → GoM (List String)
  | 0, _, div => GoM.done div
  | todo + 1, i, div =>
    GoM.andThen (goIndex parts 0) fun p0 =>
    GoM.andThen (goIndex parts 1) fun p1 =>
    GoM.andThen (goIndex parts 2) fun p2 =>
    divideLoopM parts todo (i + 1) (div.set i (sprintfSub p0 p1 p2 (i * 32)))

/-- Embedding of `divideSubnet` (helpers.go:76-89) as a body run against the package
state, statement by statement. -/
def divideSubnetM (base : String) (num : Int) :
    GoM (Option (List String) × Option GoError) :=
  if num > 4 then GoM.done (none, some "too many divisions")
  else
    GoM.andThen (goMake num) fun div =>
    let parts := stringsSplit base '.'
    GoM.andThen (divideLoopM parts num.toNat 0 div) fun div =>
    GoM.done (some div, none)

/-- Embedding of `humanStatus` (helpers.go:111-141) run against the package state:
what it prints goes to standard output. -/
def humanStatusM (original : String) : GoM String :=
  GoM.andThen (fmtPrintf (humanStatus original).stdout) fun _ =>
  GoM.done (humanStatus original).value

/-- Embedding of `nextAvailableSubnet` (helpers.go:143-181) run against the package
state: the listing is what the remote service answers. -/
def nextAvailableSubnetM (vpc : String) : GoM (String × Option GoError) :=
  fun w => (.ret (nextAvailableSubnet vpc w.remote), w)

/-! ## Theorems -/

theorem mem_documentedCodes {s : String} (h : s ∈ documentedCodes) :
    s = "" ∨ s = "CREATE_IN_PROGRESS" ∨ s = "CREATE_COMPLETE" ∨ s = "DELETE_FAILED" ∨
    s = "DELETE_IN_PROGRESS" ∨ s = "ROLLBACK_IN_PROGRESS" ∨ s = "ROLLBACK_COMPLETE" ∨
    s = "UPDATE_IN_PROGRESS" ∨ s = "UPDATE_COMPLETE_CLEANUP_IN_PROGRESS" ∨
    s = "UPDATE_COMPLETE" ∨ s = "UPDATE_ROLLBACK_IN_PROGRESS" ∨
    s = "UPDATE_ROLLBACK_COMPLETE" := by
  simpa only [documentedCodes, List.mem_cons, List.mem_singleton, List.not_mem_nil,
    or_false] using h

theorem humanStatus_of_not_mem {s : String} (h : s ∉ documentedCodes) :
    humanStatus s = ⟨"unknown", "unknown status: " ++ s ++ "\n"⟩ := by
  simp only [documentedCodes, List.mem_cons, List.mem_singleton, List.not_mem_nil,
    or_false, not_or] at h
  obtain ⟨h1, h2, h3, h4, h5, h6, h7, h8, h9, h10, h11, h12⟩ := h
  unfold humanStatus
  rw [if_neg h1, if_neg h2, if_neg h3, if_neg h4, if_neg h5, if_neg h6, if_neg h7, if_neg h8,
    if_neg h9, if_neg h10, if_neg h11, if_neg h12]

/-- C2: `humanStatus` maps each of the twelve documented raw lifecycle codes to the
status given in the table of section 4.2. -/
theorem humanStatus_table :
    (humanStatus "").value = "new" ∧
    (humanStatus "CREATE_IN_PROGRESS").value = "creating" ∧
    (humanStatus "CREATE_COMPLETE").value = "running" ∧
    (humanStatus "DELETE_FAILED").value = "running" ∧
    (humanStatus "DELETE_IN_PROGRESS").value = "deleting" ∧
    (humanStatus "ROLLBACK_IN_PROGRESS").value = "rollback" ∧
    (humanStatus "ROLLBACK_COMPLETE").value = "failed" ∧
    (humanStatus "UPDATE_IN_PROGRESS").value = "updating" ∧
    (humanStatus "UPDATE_COMPLETE_CLEANUP_IN_PROGRESS").value = "updating" ∧
    (humanStatus "UPDATE_COMPLETE").value = "running" ∧
    (humanStatus "UPDATE_ROLLBACK_IN_PROGRESS").value = "rollback" ∧
    (humanStatus "UPDATE_ROLLBACK_COMPLETE").value = "failed" := by
  refine ⟨?_, ?_, ?_, ?_, ?_, ?_, ?_, ?_, ?_, ?_, ?_, ?_⟩ <;> decide

/-- C3: for every input `humanStatus` returns one of the eight application statuses;
it returns `unknown` exactly when the input is none of the twelve documented codes
(compared exactly, case included); and each of the eight statuses is returned for
some input. -/
theorem humanStatus_total (original : String) :
    (humanStatus original).value ∈ applicationStatuses ∧
    ((humanStatus original).value = "unknown" ↔ original ∉ documentedCodes) ∧
    (humanStatus "create_in_progress").value = "unknown" ∧
    (∀ st ∈ applicationStatuses, ∃ code, (humanStatus code).value = st) := by
  refine ⟨?_, ?_, by decide, ?_⟩
  · by_cases h : original ∈ documentedCodes
    · rcases mem_documentedCodes h with
        h | h | h | h | h | h | h | h | h | h | h | h <;> subst h <;> decide
    · rw [humanStatus_of_not_mem h]
      show "unknown" ∈ applicationStatuses
      decide
  · constructor
    · intro hv hmem
      rcases mem_documentedCodes hmem with
        h | h | h | h | h | h | h | h | h | h | h | h <;> subst h <;> revert hv <;> decide
    · intro h
      rw [humanStatus_of_not_mem h]
  · intro st hst
    simp only [applicationStatuses, List.mem_cons, List.mem_singleton, List.not_mem_nil,
      or_false] at hst
    rcases hst with h | h | h | h | h | h | h | h <;> subst h
    · exact ⟨"", by decide⟩
    · exact ⟨"CREATE_IN_PROGRESS", by decide⟩
    · exact ⟨"CREATE_COMPLETE", by decide⟩
    · exact ⟨"UPDATE_IN_PROGRESS", by decide⟩
    · exact ⟨"DELETE_IN_PROGRESS", by decide⟩
    · exact ⟨"ROLLBACK_IN_PROGRESS", by decide⟩
    · exact ⟨"ROLLBACK_COMPLETE", by decide⟩
    · exact ⟨"no such code", by decide⟩


/-! ### The allocator's loops -/

theorem isFound_iff (a : String) (used : List String) : isFound a used = true ↔ a ∈ used := by
  induction used with
  | nil => simp [isFound]
  | cons u rest ih =>
    unfold isFound
    by_cases h : a = u
    · simp [h]
    · simp [h, ih]

theorem mem_usedLoop (listing : List Stack) (acc : List String) (x : String) :
    x ∈ usedLoop listing acc ↔ x ∈ acc ∨ Reserved listing x := by
  induction listing generalizing acc with
  | nil => simp [usedLoop, Reserved]
  | cons st rest ih =>
    unfold usedLoop
    by_cases h : mapGet (stackTags st) "type" = "app"
    · simp only [h, if_true, ih, List.mem_append, List.mem_singleton]
      constructor
      · rintro ((hx | hx) | ⟨t, ht, h1, h2⟩)
        · exact Or.inl hx
        · exact Or.inr ⟨st, List.mem_cons_self _ _, h, hx.symm⟩
        · exact Or.inr ⟨t, List.mem_cons_of_mem _ ht, h1, h2⟩
      · rintro (hx | ⟨t, ht, h1, h2⟩)
        · exact Or.inl (Or.inl hx)
        · rcases List.mem_cons.1 ht with rfl | ht
          · exact Or.inl (Or.inr h2.symm)
          · exact Or.inr ⟨t, ht, h1, h2⟩
    · simp only [h, if_false, ih]
      constructor
      · rintro (hx | ⟨t, ht, h1, h2⟩)
        · exact Or.inl hx
        · exact Or.inr ⟨t, List.mem_cons_of_mem _ ht, h1, h2⟩
      · rintro (hx | ⟨t, ht, h1, h2⟩)
        · exact Or.inl hx
        · rcases List.mem_cons.1 ht with rfl | ht
          · exact absurd h1 h
          · exact Or.inr ⟨t, ht, h1, h2⟩

theorem mem_used_iff (listing : List Stack) (x : String) :
    x ∈ usedLoop listing [] ↔ Reserved listing x := by
  simp [mem_usedLoop]

/-- What the search over the candidates `s, s+1, .., s+n-1` returns. -/
theorem searchLoop_range (used : List String) (n s : Nat) :
    (∃ i, s ≤ i ∧ i < s + n ∧ candidate i ∉ used ∧
        (∀ j, s ≤ j → j < i → candidate j ∈ used) ∧
        searchLoop ((List.range' s n).map candidate) used = (candidate i, none)) ∨
    ((∀ j, s ≤ j → j < s + n → candidate j ∈ used) ∧
        searchLoop ((List.range' s n).map candidate) used = ("", some "no available subnets")) := by
  induction n generalizing s with
  | zero =>
    right
    exact ⟨fun j h1 h2 => absurd h2 (by omega), rfl⟩
  | succ n ih =>
    rw [List.range'_succ, List.map_cons]
    unfold searchLoop
    by_cases hs : candidate s ∈ used
    · rw [if_pos ((isFound_iff _ _).2 hs)]
      rcases ih (s + 1) with ⟨i, h1, h2, h3, h4, h5⟩ | ⟨h1, h2⟩
      · left
        refine ⟨i, by omega, by omega, h3, ?_, h5⟩
        intro j hj1 hj2
        rcases Nat.eq_or_lt_of_le hj1 with rfl | hlt
        · exact hs
        · exact h4 j hlt hj2
      · right
        refine ⟨?_, h2⟩
        intro j hj1 hj2
        rcases Nat.eq_or_lt_of_le hj1 with rfl | hlt
        · exact hs
        · exact h1 j hlt (by omega)
    · have hf : ¬ (isFound (candidate s) used = true) := fun h => hs ((isFound_iff _ _).1 h)
      rw [if_neg hf]
      left
      exact ⟨s, le_refl _, by omega, hs, fun j h1 h2 => absurd h2 (by omega), rfl⟩

/-- The two possible results of the allocator on a listing. -/
theorem nextAvailableSubnet_cases (vpc : String) (listing : List Stack) :
    (∃ i, 1 ≤ i ∧ i ≤ 254 ∧ ¬ Reserved listing (candidate i) ∧
        (∀ j, 1 ≤ j → j < i → Reserved listing (candidate j)) ∧
        nextAvailableSubnet vpc (.ok listing) = (candidate i, none)) ∨
    ((∀ j, 1 ≤ j → j ≤ 254 → Reserved listing (candidate j)) ∧
        nextAvailableSubnet vpc (.ok listing) = ("", some "no available subnets")) := by
  rcases searchLoop_range (usedLoop listing []) 254 1 with ⟨i, h1, h2, h3, h4, h5⟩ | ⟨h1, h2⟩
  · left
    refine ⟨i, h1, by omega, fun h => h3 ((mem_used_iff _ _).2 h), ?_, h5⟩
    intro j hj1 hj2
    exact (mem_used_iff _ _).1 (h4 j hj1 hj2)
  · right
    refine ⟨?_, h2⟩
    intro j hj1 hj2
    exact (mem_used_iff _ _).1 (h1 j hj1 (by omega))

/-- C1: on every listing the allocator returns the candidate `10.0.i.0/24` of least
`i` in `1..254` that is not the subnet of a `type=app` stack, and it fails with
`no available subnets` exactly when all 254 candidates are taken.  With
`10.0.1.0/24` and `10.0.2.0/24` taken the result is `10.0.3.0/24`. -/
theorem nextAvailableSubnet_least (vpc : String) (listing : List Stack) :
    ((∃ i, 1 ≤ i ∧ i ≤ 254 ∧ ¬ Reserved listing (candidate i) ∧
          (∀ j, 1 ≤ j → j < i → Reserved listing (candidate j)) ∧
          nextAvailableSubnet vpc (.ok listing) = (candidate i, none)) ∨
      nextAvailableSubnet vpc (.ok listing) = ("", some "no available subnets")) ∧
    (∀ i, 1 ≤ i → i ≤ 254 → ¬ Reserved listing (candidate i) →
        (∀ j, 1 ≤ j → j < i → Reserved listing (candidate j)) →
        nextAvailableSubnet vpc (.ok listing) = (candidate i, none)) ∧
    (nextAvailableSubnet vpc (.ok listing) = ("", some "no available subnets") ↔
        ∀ i, 1 ≤ i → i ≤ 254 → Reserved listing (candidate i)) ∧
    nextAvailableSubnet vpc (.ok [appStack "10.0.1.0/24", appStack "10.0.2.0/24"])
        = ("10.0.3.0/24", none) := by
  refine ⟨?_, ?_, ?_, ?_⟩
  rotate_left 3
  · show searchLoop available (usedLoop _ []) = _
    decide
  · rcases nextAvailableSubnet_cases vpc listing with h | ⟨_, h⟩
    · exact Or.inl h
    · exact Or.inr h
  · intro i h1 h2 h3 h4
    rcases nextAvailableSubnet_cases vpc listing with ⟨k, k1, k2, k3, k4, k5⟩ | ⟨hall, _⟩
    · rcases Nat.lt_trichotomy i k with hlt | heq | hgt
      · exact absurd (k4 i h1 hlt) h3
      · rw [heq]; exact k5
      · exact absurd (h4 k k1 hgt) k3
    · exact absurd (hall i h1 h2) h3
  · constructor
    · intro hres
      rcases nextAvailableSubnet_cases vpc listing with ⟨k, _, _, _, _, k5⟩ | ⟨hall, _⟩
      · rw [k5] at hres
        exact absurd (congrArg Prod.snd hres) (by simp)
      · exact hall
    · intro hall
      rcases nextAvailableSubnet_cases vpc listing with ⟨k, k1, k2, k3, _, _⟩ | ⟨_, h⟩
      · exact absurd (hall k k1 k2) k3
      · exact h

/-! ### Splitting and reading strings -/

theorem splitOnChar_ne_nil (sep : Char) (l : List Char) : splitOnChar sep l ≠ [] := by
  cases l with
  | nil => simp [splitOnChar]
  | cons c cs =>
    by_cases h : c = sep
    · simp [splitOnChar, h]
    · cases hs : splitOnChar sep cs <;> simp [splitOnChar, h, hs]

theorem splitOnChar_append (sep : Char) (a rest : List Char) (ha : sep ∉ a) :
    splitOnChar sep (a ++ sep :: rest) = a :: splitOnChar sep rest := by
  induction a with
  | nil => simp [splitOnChar]
  | cons c a ih =>
    have hc : c ≠ sep := fun h => ha (by simp [h])
    have ha2 : sep ∉ a := fun h => ha (List.mem_cons_of_mem _ h)
    simp [splitOnChar, hc, ih ha2]

theorem splitOnChar_of_not_mem (sep : Char) (a : List Char) (ha : sep ∉ a) :
    splitOnChar sep a = [a] := by
  induction a with
  | nil => simp [splitOnChar]
  | cons c a ih =>
    have hc : c ≠ sep := fun h => ha (by simp [h])
    have ha2 : sep ∉ a := fun h => ha (List.mem_cons_of_mem _ h)
    simp [splitOnChar, hc, ih ha2]

theorem splitOnChar_cons_inv (sep : Char) (l p : List Char) (ps : List (List Char))
    (h : splitOnChar sep l = p :: ps) :
    sep ∉ p ∧ ((ps = [] ∧ l = p) ∨ ∃ rest, l = p ++ sep :: rest ∧ splitOnChar sep rest = ps) := by
  induction l generalizing p ps with
  | nil =>
    simp [splitOnChar] at h
    obtain ⟨rfl, rfl⟩ := h
    simp
  | cons c cs ih =>
    by_cases hc : c = sep
    · simp [splitOnChar, hc] at h
      obtain ⟨rfl, rfl⟩ := h
      subst hc
      exact ⟨by simp, Or.inr ⟨cs, by simp, rfl⟩⟩
    · cases hs : splitOnChar sep cs with
      | nil => exact absurd hs (splitOnChar_ne_nil _ _)
      | cons q qs =>
        simp [splitOnChar, hc, hs] at h
        obtain ⟨rfl, rfl⟩ := h
        obtain ⟨hq, hrest⟩ := ih q qs hs
        refine ⟨?_, ?_⟩
        · intro hmem
          rcases List.mem_cons.1 hmem with h1 | h1
          · exact hc h1.symm
          · exact hq h1
        · rcases hrest with ⟨rfl, rfl⟩ | ⟨rest, rfl, hr⟩
          · exact Or.inl ⟨rfl, rfl⟩
          · exact Or.inr ⟨rest, by simp, hr⟩

theorem splitOnChar_single_inv (sep : Char) (l p : List Char) (h : splitOnChar sep l = [p]) :
    sep ∉ p ∧ l = p := by
  obtain ⟨hp, hl⟩ := splitOnChar_cons_inv sep l p [] h
  refine ⟨hp, ?_⟩
  rcases hl with ⟨_, hl⟩ | ⟨rest, _, hr⟩
  · exact hl
  · exact absurd hr (splitOnChar_ne_nil _ _)

theorem splitOnChar_step_inv (sep : Char) (l p q : List Char) (qs : List (List Char))
    (h : splitOnChar sep l = p :: q :: qs) :
    sep ∉ p ∧ ∃ rest, l = p ++ sep :: rest ∧ splitOnChar sep rest = q :: qs := by
  obtain ⟨hp, hl⟩ := splitOnChar_cons_inv sep l p (q :: qs) h
  refine ⟨hp, ?_⟩
  rcases hl with ⟨hnil, _⟩ | hr
  · exact absurd hnil (by simp)
  · exact hr

theorem parseDigits_digits (cs : List Char) (acc n : Nat) (h : parseDigits cs acc = some n) :
    ∀ ch ∈ cs, digitVal ch ≠ none := by
  induction cs generalizing acc with
  | nil => simp
  | cons c cs ih =>
    intro ch hch
    cases hd : digitVal c with
    | none => simp [parseDigits, hd] at h
    | some v =>
      simp only [parseDigits, hd] at h
      rcases List.mem_cons.1 hch with rfl | hmem
      · simp [hd]
      · exact ih _ h ch hmem

theorem parseNat_digits (cs : List Char) (n : Nat) (h : parseNat cs = some n) :
    ∀ ch ∈ cs, digitVal ch ≠ none := by
  cases cs with
  | nil => simp
  | cons c cs => exact parseDigits_digits _ 0 n h

theorem parseNat_no_dot (cs : List Char) (n : Nat) (h : parseNat cs = some n) : '.' ∉ cs :=
  fun hm => parseNat_digits cs n h '.' hm (by decide)

theorem parseNat_no_slash (cs : List Char) (n : Nat) (h : parseNat cs = some n) : '/' ∉ cs :=
  fun hm => parseNat_digits cs n h '/' hm (by decide)

set_option maxRecDepth 100000 in
/-- The decimal numeral of a number below 256 reads back as that number. -/
theorem parseNat_fmtInt : ∀ n, n < 256 → parseNat (fmtInt n).data = some n := by
  decide

/-- What a well-formed block string looks like. -/
theorem parseBlock_inv (s : String) (B : Block) (h : parseBlock s = some B) :
    ∃ a b c d l : List Char,
      s.data = a ++ '.' :: (b ++ '.' :: (c ++ '.' :: (d ++ '/' :: l))) ∧
      parseNat a = some B.a ∧ parseNat b = some B.b ∧ parseNat c = some B.c ∧
      parseNat d = some B.d ∧ parseNat l = some B.len ∧
      B.a < 256 ∧ B.b < 256 ∧ B.c < 256 ∧ B.d < 256 ∧ B.len ≤ 32 := by
  unfold parseBlock at h
  split at h
  · rename_i addr len hsl
    split at h
    · rename_i a b c d hdot
      split at h
      · rename_i na nb nc nd nl ha hb hc hd hl
        split_ifs at h with hbound
        obtain ⟨h1, h2, h3, h4, h5⟩ := hbound
        have hB : B = ⟨na, nb, nc, nd, nl⟩ := by simpa using h.symm
        subst hB
        obtain ⟨_, r0, hs0, hr0⟩ := splitOnChar_step_inv _ _ _ _ _ hsl
        obtain ⟨_, hlen⟩ := splitOnChar_single_inv _ _ _ hr0
        obtain ⟨_, r1, hs1, hr1⟩ := splitOnChar_step_inv _ _ _ _ _ hdot
        obtain ⟨_, r2, hs2, hr2⟩ := splitOnChar_step_inv _ _ _ _ _ hr1
        obtain ⟨_, r3, hs3, hr3⟩ := splitOnChar_step_inv _ _ _ _ _ hr2
        obtain ⟨_, hd4⟩ := splitOnChar_single_inv _ _ _ hr3
        refine ⟨a, b, c, d, len, ?_, ha, hb, hc, hd, hl, h1, h2, h3, h4, h5⟩
        rw [hs0, hs1, hs2, hs3, hd4, hlen]
        simp
      · exact absurd h (by simp)
    · exact absurd h (by simp)
  · exact absurd h (by simp)

/-- A string of the shape `a.b.c.d/len` with numeric fields in range is a block. -/
theorem parseBlock_of_data (s : String) (a b c d l : List Char) (na nb nc nd nl : Nat)
    (hs : s.data = a ++ '.' :: (b ++ '.' :: (c ++ '.' :: (d ++ '/' :: l))))
    (ha : parseNat a = some na) (hb : parseNat b = some nb) (hc : parseNat c = some nc)
    (hd : parseNat d = some nd) (hl : parseNat l = some nl)
    (h1 : na < 256) (h2 : nb < 256) (h3 : nc < 256) (h4 : nd < 256) (h5 : nl ≤ 32) :
    parseBlock s = some ⟨na, nb, nc, nd, nl⟩ := by
  have hsl : splitOnChar '/' s.data = [a ++ '.' :: (b ++ '.' :: (c ++ '.' :: d)), l] := by
    have e : s.data = (a ++ '.' :: (b ++ '.' :: (c ++ '.' :: d))) ++ '/' :: l := by
      rw [hs]; simp
    rw [e, splitOnChar_append, splitOnChar_of_not_mem _ _ (parseNat_no_slash _ _ hl)]
    have := parseNat_no_slash _ _ ha
    have := parseNat_no_slash _ _ hb
    have := parseNat_no_slash _ _ hc
    have := parseNat_no_slash _ _ hd
    simp [*]
  have hdot : splitOnChar '.' (a ++ '.' :: (b ++ '.' :: (c ++ '.' :: d))) = [a, b, c, d] := by
    rw [splitOnChar_append _ _ _ (parseNat_no_dot _ _ ha),
      splitOnChar_append _ _ _ (parseNat_no_dot _ _ hb),
      splitOnChar_append _ _ _ (parseNat_no_dot _ _ hc),
      splitOnChar_of_not_mem _ _ (parseNat_no_dot _ _ hd)]
  unfold parseBlock
  simp only [hsl, hdot, ha, hb, hc, hd, hl]
  simp [h1, h2, h3, h4, h5]

/-- The dot-separated parts of a well-formed block string start with its three
leading octets. -/
theorem stringsSplit_block (s : String) (B : Block) (h : parseBlock s = some B) :
    ∃ a b c d l : List Char,
      stringsSplit s '.' = [String.mk a, String.mk b, String.mk c, String.mk (d ++ '/' :: l)] ∧
      parseNat a = some B.a ∧ parseNat b = some B.b ∧ parseNat c = some B.c ∧
      B.a < 256 ∧ B.b < 256 ∧ B.c < 256 ∧ B.d < 256 ∧ B.len ≤ 32 := by
  obtain ⟨a, b, c, d, l, hs, ha, hb, hc, hd, hl, hbd⟩ := parseBlock_inv s B h
  refine ⟨a, b, c, d, l, ?_, ha, hb, hc, hbd⟩
  unfold stringsSplit
  rw [hs, splitOnChar_append _ _ _ (parseNat_no_dot _ _ ha),
    splitOnChar_append _ _ _ (parseNat_no_dot _ _ hb),
    splitOnChar_append _ _ _ (parseNat_no_dot _ _ hc),
    splitOnChar_of_not_mem]
  · rfl
  · intro hm
    rcases List.mem_append.1 hm with h1 | h1
    · exact parseNat_no_dot _ _ hd h1
    · rcases List.mem_cons.1 h1 with h2 | h2
      · exact absurd h2 (by decide)
      · exact parseNat_no_dot _ _ hl h2

/-- The canonical text of a block in range reads back as the block. -/
theorem parseBlock_render (B : Block) (h1 : B.a < 256) (h2 : B.b < 256) (h3 : B.c < 256)
    (h4 : B.d < 256) (h5 : B.len ≤ 32) : parseBlock B.render = some B := by
  have := parseBlock_of_data B.render (fmtInt B.a).data (fmtInt B.b).data (fmtInt B.c).data
    (fmtInt B.d).data (fmtInt B.len).data B.a B.b B.c B.d B.len
    (by simp [Block.render, String.data_append])
    (parseNat_fmtInt _ h1) (parseNat_fmtInt _ h2) (parseNat_fmtInt _ h3) (parseNat_fmtInt _ h4)
    (parseNat_fmtInt _ (by omega)) h1 h2 h3 h4 h5
  simpa using this

theorem candidate_eq_render (i : Nat) : candidate i = Block.render ⟨10, 0, i, 0, 24⟩ := by
  apply String.ext
  simp [candidate, Block.render, String.data_append]
  rfl

/-- Every candidate of the allocator reads back as the block `10.0.i.0/24`. -/
theorem parseBlock_candidate (i : Nat) (h : i < 256) :
    parseBlock (candidate i) = some ⟨10, 0, i, 0, 24⟩ := by
  rw [candidate_eq_render]
  exact parseBlock_render _ (by simp) (by simp) h (by simp) (by simp)

/-! ### The divider -/

/-- With at least three dot-separated parts, `divideSubnet` fills every slot. -/
theorem divideSubnet_parts (base : String) (n : Int) (p0 p1 p2 : String) (rest : List String)
    (hparts : stringsSplit base '.' = p0 :: p1 :: p2 :: rest) (h0 : 0 ≤ n) (h4 : n ≤ 4) :
    divideSubnet base n =
      .ret (some ((List.range n.toNat).map fun i => sprintfSub p0 p1 p2 (i * 32)), none) := by
  obtain ⟨k, rfl⟩ := Int.eq_ofNat_of_zero_le h0
  have hk : k ≤ 4 := by omega
  have hgt : ¬ ((k : Int) > 4) := by omega
  have hlt : ¬ ((k : Int) < 0) := by omega
  unfold divideSubnet
  rw [if_neg hgt, if_neg hlt]
  simp only [hparts, Int.toNat_ofNat]
  interval_cases k <;> simp [divideLoop, List.range, List.range.loop, List.replicate]

/-- C10: for every base string, malformed ones included, a division count of 0
gives an empty sequence and no error. -/
theorem divideSubnet_zero (base : String) : divideSubnet base 0 = .ret (some [], none) := by
  simp [divideSubnet, divideLoop]

/-- C5: for every base and every count above 4 `divideSubnet` returns the error
`too many divisions` with a nil slice, and for every well-formed base block and every
count from 0 to 4 it returns a slice and no error. -/
theorem divideSubnet_error :
    (∀ (base : String) (n : Int), n > 4 →
        divideSubnet base n = .ret (none, some "too many divisions")) ∧
    (∀ (base : String) (B : Block) (n : Int), parseBlock base = some B → 0 ≤ n → n ≤ 4 →
        ∃ div, divideSubnet base n = .ret (some div, none)) := by
  constructor
  · intro base n hn
    unfold divideSubnet
    rw [if_pos hn]
  · intro base B n hB h0 h4
    obtain ⟨a, b, c, d, l, hparts, _⟩ := stringsSplit_block base B hB
    exact ⟨_, divideSubnet_parts base n _ _ _ _ hparts h0 h4⟩

theorem divideSubnet_error_witness :
    divideSubnet "10.0.0.0/24" 5 = .ret (none, some "too many divisions") ∧
    ∃ div, divideSubnet "10.0.0.0/24" 4 = .ret (some div, none) :=
  ⟨divideSubnet_error.1 "10.0.0.0/24" 5 (by decide),
   divideSubnet_error.2 "10.0.0.0/24" ⟨10, 0, 0, 0, 24⟩ 4 (by decide) (by decide) (by decide)⟩

/-- C9: for a base written `a.b.c.d/p` (the octets `a`, `b`, `c` hold no dot) and a
count `n` from 0 to 4, `divideSubnet` returns, at index `i = 0 .. n-1`, the string
`a.b.c.(32*i)/27`. -/
theorem divideSubnet_octets (a b c d p : String) (n : Int)
    (ha : '.' ∉ a.data) (hb : '.' ∉ b.data) (hc : '.' ∉ c.data) (h0 : 0 ≤ n) (h4 : n ≤ 4) :
    divideSubnet (a ++ "." ++ b ++ "." ++ c ++ "." ++ d ++ "/" ++ p) n =
      .ret (some ((List.range n.toNat).map fun i =>
        a ++ "." ++ b ++ "." ++ c ++ "." ++ fmtInt (32 * i) ++ "/27"), none) := by
  have hdata : (a ++ "." ++ b ++ "." ++ c ++ "." ++ d ++ "/" ++ p).data =
      a.data ++ '.' :: (b.data ++ '.' :: (c.data ++ '.' :: (d.data ++ '/' :: p.data))) := by
    simp [String.data_append]
  obtain ⟨q, qs, hq⟩ : ∃ q qs, splitOnChar '.' (d.data ++ '/' :: p.data) = q :: qs := by
    cases hs : splitOnChar '.' (d.data ++ '/' :: p.data) with
    | nil => exact absurd hs (splitOnChar_ne_nil _ _)
    | cons q qs => exact ⟨q, qs, rfl⟩
  have hparts : stringsSplit (a ++ "." ++ b ++ "." ++ c ++ "." ++ d ++ "/" ++ p) '.' =
      a :: b :: c :: (String.mk q :: qs.map String.mk) := by
    unfold stringsSplit
    rw [hdata, splitOnChar_append _ _ _ ha, splitOnChar_append _ _ _ hb,
      splitOnChar_append _ _ _ hc, hq]
    rfl
  rw [divideSubnet_parts _ n a b c _ hparts h0 h4]
  simp only [sprintfSub, Nat.mul_comm]

theorem divideSubnet_octets_witness :
    divideSubnet "10.0.0.0/24" 4 =
      .ret (some ["10.0.0.0/27", "10.0.0.32/27", "10.0.0.64/27", "10.0.0.96/27"], none) :=
  divideSubnet_octets "10" "0" "0" "0" "24" 4 (by decide) (by decide) (by decide)
    (by decide) (by decide)

/-! ### Address ranges -/

theorem sub_size (a b c i : Nat) : (⟨a, b, c, i * 32, 27⟩ : Block).size = 32 := by
  simp [Block.size]

theorem sub_lo (a b c i : Nat) :
    (⟨a, b, c, i * 32, 27⟩ : Block).lo = ((a * 256 + b) * 256 + c) * 256 + i * 32 := by
  simp only [Block.lo, sub_size, Block.addr]
  omega

theorem sub_hi (a b c i : Nat) :
    (⟨a, b, c, i * 32, 27⟩ : Block).hi = ((a * 256 + b) * 256 + c) * 256 + i * 32 + 31 := by
  simp only [Block.hi, sub_lo, sub_size]
  omega

/-- A block of prefix length at most 24 covers the whole `/24` network of its address. -/
theorem wide_block_range (B : Block) (hlen : B.len ≤ 24) (hd : B.d < 256) :
    B.lo ≤ B.net24 ∧ B.net24 + 256 ≤ B.hi + 1 := by
  have hsize : B.size = 256 * 2 ^ (24 - B.len) := by
    unfold Block.size
    have e : 32 - B.len = 8 + (24 - B.len) := by omega
    rw [e, pow_add]
    norm_num
  have hpos : 0 < B.size := by unfold Block.size; positivity
  have haddr : B.addr = B.net24 + B.d := rfl
  have hnet : B.net24 = 256 * ((B.a * 256 + B.b) * 256 + B.c) := by
    unfold Block.net24; ring
  have h1 : B.lo ≤ B.addr := Nat.div_mul_le_self _ _
  have h2 : B.addr < B.lo + B.size := by
    unfold Block.lo
    exact Nat.lt_div_mul_add hpos
  have hlo : B.lo = 256 * (B.addr / B.size * 2 ^ (24 - B.len)) := by
    unfold Block.lo
    rw [hsize]
    ring
  have hhi : B.hi + 1 = B.lo + B.size := by
    unfold Block.hi
    omega
  have hup : B.lo + B.size = 256 * ((B.addr / B.size + 1) * 2 ^ (24 - B.len)) := by
    rw [hlo]
    rw [hsize]
    ring
  generalize B.addr / B.size * 2 ^ (24 - B.len) = q at hlo
  generalize (B.addr / B.size + 1) * 2 ^ (24 - B.len) = r at hup
  omega

/-- The strings `divideSubnet` builds from the octets of a block read back as blocks. -/
theorem parseBlock_sprintfSub (a b c : List Char) (na nb nc i : Nat)
    (ha : parseNat a = some na) (hb : parseNat b = some nb) (hc : parseNat c = some nc)
    (h1 : na < 256) (h2 : nb < 256) (h3 : nc < 256) (hi : i < 8) :
    parseBlock (sprintfSub (String.mk a) (String.mk b) (String.mk c) (i * 32)) =
      some ⟨na, nb, nc, i * 32, 27⟩ := by
  have hlt : i * 32 < 256 := by omega
  exact parseBlock_of_data _ a b c (fmtInt (i * 32)).data "27".data na nb nc (i * 32) 27
    (by simp [sprintfSub, String.data_append]) ha hb hc (parseNat_fmtInt _ hlt) (by decide)
    h1 h2 h3 hlt (by decide)

/-- C4, with the containment condition made explicit: for every well-formed base
block `B = a.b.c.d/p` and every count `n` from 0 to 4, `divideSubnet` returns exactly
`n` strings that read as blocks, each of 32 addresses, with pairwise disjoint ranges.
They lie inside the range of `B` whenever `p ≤ 24`, and in general exactly when `n = 0`
or the range of `B` covers `a.b.c.0 .. a.b.c.(32n-1)`. -/
theorem divideSubnet_blocks (base : String) (B : Block) (n : Int)
    (hB : parseBlock base = some B) (h0 : 0 ≤ n) (h4 : n ≤ 4) :
    ∃ (div : List String) (subs : List Block),
      divideSubnet base n = .ret (some div, none) ∧
      div.length = n.toNat ∧ div.map parseBlock = subs.map some ∧
      (∀ S ∈ subs, S.size = 32) ∧
      subs.Pairwise Block.Disjoint ∧
      (B.len ≤ 24 → ∀ S ∈ subs, S.Within B) ∧
      ((∀ S ∈ subs, S.Within B) ↔
        (n = 0 ∨ (B.lo ≤ B.net24 ∧ B.net24 + 32 * n.toNat ≤ B.hi + 1))) := by
  obtain ⟨a, b, c, d, l, hparts, ha, hb, hc, b1, b2, b3, b4, b5⟩ := stringsSplit_block base B hB
  obtain ⟨k, rfl⟩ := Int.eq_ofNat_of_zero_le h0
  have hk : k ≤ 4 := by omega
  have hwithin : ∀ i, (⟨B.a, B.b, B.c, i * 32, 27⟩ : Block).Within B ↔
      (B.lo ≤ B.net24 + i * 32 ∧ B.net24 + i * 32 + 31 ≤ B.hi) := by
    intro i
    unfold Block.Within
    rw [sub_lo, sub_hi]
    rfl
  refine ⟨_, (List.range k).map (fun i => ⟨B.a, B.b, B.c, i * 32, 27⟩),
    divideSubnet_parts base _ _ _ _ _ hparts h0 h4, by simp, ?_, ?_, ?_, ?_, ?_⟩
  · simp only [Int.toNat_ofNat, List.map_map]
    apply List.map_congr_left
    intro i hi
    have hi4 : i < 8 := by
      have := List.mem_range.1 hi
      omega
    simpa using parseBlock_sprintfSub a b c B.a B.b B.c i ha hb hc b1 b2 b3 hi4
  · intro S hS
    obtain ⟨i, _, rfl⟩ := List.mem_map.1 hS
    exact sub_size _ _ _ _
  · rw [List.pairwise_map]
    refine List.Pairwise.imp ?_ (List.pairwise_lt_range k)
    intro i j hij
    left
    rw [sub_hi, sub_lo]
    omega
  · intro hlen S hS
    obtain ⟨i, hi, rfl⟩ := List.mem_map.1 hS
    have hi4 := List.mem_range.1 hi
    obtain ⟨w1, w2⟩ := wide_block_range B hlen b4
    rw [hwithin]
    omega
  · constructor
    · intro hall
      rcases Nat.eq_zero_or_pos k with hz | hpos
      · left
        simp [hz]
      · right
        have hfirst := (hwithin 0).1
          (hall _ (List.mem_map.2 ⟨0, List.mem_range.2 hpos, rfl⟩))
        have hlast := (hwithin (k - 1)).1
          (hall _ (List.mem_map.2 ⟨k - 1, List.mem_range.2 (by omega), rfl⟩))
        simp only [Int.toNat_ofNat]
        omega
    · intro hcov S hS
      obtain ⟨i, hi, rfl⟩ := List.mem_map.1 hS
      have hi4 := List.mem_range.1 hi
      rw [hwithin]
      rcases hcov with hz | ⟨c1, c2⟩
      · have : k = 0 := by exact_mod_cast hz
        omega
      · simp only [Int.toNat_ofNat] at c2
        omega

theorem divideSubnet_blocks_witness :
    ∃ (div : List String) (subs : List Block),
      divideSubnet "10.0.0.0/24" 4 = .ret (some div, none) ∧
      div.length = (4 : Int).toNat ∧ div.map parseBlock = subs.map some ∧
      (∀ S ∈ subs, S.size = 32) ∧
      subs.Pairwise Block.Disjoint ∧
      ((⟨10, 0, 0, 0, 24⟩ : Block).len ≤ 24 → ∀ S ∈ subs, S.Within ⟨10, 0, 0, 0, 24⟩) ∧
      ((∀ S ∈ subs, S.Within ⟨10, 0, 0, 0, 24⟩) ↔
        ((4 : Int) = 0 ∨ ((⟨10, 0, 0, 0, 24⟩ : Block).lo ≤ (⟨10, 0, 0, 0, 24⟩ : Block).net24 ∧
          (⟨10, 0, 0, 0, 24⟩ : Block).net24 + 32 * (4 : Int).toNat
            ≤ (⟨10, 0, 0, 0, 24⟩ : Block).hi + 1))) :=
  divideSubnet_blocks "10.0.0.0/24" ⟨10, 0, 0, 0, 24⟩ 4 (by decide) (by decide) (by decide)

/-- C4, counterexample to containment for every base: the base block `10.0.0.128/25`
divided into 1 gives `10.0.0.0/27`, whose range `10.0.0.0 .. 10.0.0.31` lies outside
the range `10.0.0.128 .. 10.0.0.255` of the base. -/
theorem divideSubnet_not_within :
    parseBlock "10.0.0.128/25" = some ⟨10, 0, 0, 128, 25⟩ ∧
    divideSubnet "10.0.0.128/25" 1 = .ret (some ["10.0.0.0/27"], none) ∧
    parseBlock "10.0.0.0/27" = some ⟨10, 0, 0, 0, 27⟩ ∧
    (⟨10, 0, 0, 128, 25⟩ : Block).lo = 167772288 ∧
    (⟨10, 0, 0, 0, 27⟩ : Block).hi = 167772191 ∧
    ¬ (⟨10, 0, 0, 0, 27⟩ : Block).Within ⟨10, 0, 0, 128, 25⟩ := by
  decide

/-! ### The allocator and the listing -/

theorem block24_lo (a b c : Nat) :
    (⟨a, b, c, 0, 24⟩ : Block).lo = ((a * 256 + b) * 256 + c) * 256 := by
  have hs : (⟨a, b, c, 0, 24⟩ : Block).size = 256 := by simp [Block.size]
  simp only [Block.lo, hs, Block.addr]
  omega

theorem block24_hi (a b c : Nat) :
    (⟨a, b, c, 0, 24⟩ : Block).hi = ((a * 256 + b) * 256 + c) * 256 + 255 := by
  have hs : (⟨a, b, c, 0, 24⟩ : Block).size = 256 := by simp [Block.size]
  simp only [Block.hi, block24_lo, hs]
  omega

/-- Two `/24` blocks with different leading octets share no address. -/
theorem block24_disjoint (a b c x y z : Nat) (hb : b < 256) (hc : c < 256) (hy : y < 256)
    (hz : z < 256) (hne : ¬ (a = x ∧ b = y ∧ c = z)) :
    (⟨a, b, c, 0, 24⟩ : Block).Disjoint ⟨x, y, z, 0, 24⟩ := by
  unfold Block.Disjoint
  rw [block24_lo, block24_hi, block24_lo, block24_hi]
  omega

theorem tagOf_appStack (block : String) :
    tagOf (appStack block) "type" = "app" ∧ tagOf (appStack block) "subnet" = block := by
  have h : ("type" : String) ≠ "subnet" := by decide
  simp [tagOf, appStack, stackTags, mapSet, mapGet, h]

theorem reserved_insert (front back : List Stack) (s : Stack) (x : String) :
    Reserved (front ++ s :: back) x ↔
      Reserved (front ++ back) x ∨ (tagOf s "type" = "app" ∧ tagOf s "subnet" = x) := by
  unfold Reserved
  constructor
  · rintro ⟨t, ht, h1, h2⟩
    rcases List.mem_append.1 ht with h | h
    · exact Or.inl ⟨t, List.mem_append.2 (Or.inl h), h1, h2⟩
    · rcases List.mem_cons.1 h with rfl | h
      · exact Or.inr ⟨h1, h2⟩
      · exact Or.inl ⟨t, List.mem_append.2 (Or.inr h), h1, h2⟩
  · rintro (⟨t, ht, h1, h2⟩ | ⟨h1, h2⟩)
    · rcases List.mem_append.1 ht with h | h
      · exact ⟨t, List.mem_append.2 (Or.inl h), h1, h2⟩
      · exact ⟨t, List.mem_append.2 (Or.inr (List.mem_cons_of_mem _ h)), h1, h2⟩
    · exact ⟨s, List.mem_append.2 (Or.inr (List.mem_cons_self _ _)), h1, h2⟩

/-- A block the allocator returns is a candidate that no `type=app` stack reserves. -/
theorem nextAvailableSubnet_ok (vpc : String) (listing : List Stack) (a : String)
    (h : nextAvailableSubnet vpc (.ok listing) = (a, none)) :
    ∃ i, 1 ≤ i ∧ i ≤ 254 ∧ a = candidate i ∧ ¬ Reserved listing a ∧
      ∀ j, 1 ≤ j → j < i → Reserved listing (candidate j) := by
  rcases nextAvailableSubnet_cases vpc listing with ⟨i, h1, h2, h3, h4, h5⟩ | ⟨_, h5⟩
  · rw [h5] at h
    have ha : candidate i = a := congrArg Prod.fst h
    subst ha
    exact ⟨i, h1, h2, rfl, h3, h4⟩
  · rw [h5] at h
    exact absurd (congrArg Prod.snd h) (by simp)

theorem usedLoop_filter (keep : Stack → Bool) (listing : List Stack) (acc : List String)
    (hkeep : ∀ s ∈ listing, tagOf s "type" = "app" → keep s = true) :
    usedLoop (listing.filter keep) acc = usedLoop listing acc := by
  induction listing generalizing acc with
  | nil => rfl
  | cons st rest ih =>
    have hrest : ∀ s ∈ rest, tagOf s "type" = "app" → keep s = true :=
      fun s hs => hkeep s (List.mem_cons_of_mem _ hs)
    by_cases hk : keep st = true
    · rw [List.filter_cons_of_pos hk]
      unfold usedLoop
      simp only [ih _ hrest]
    · rw [List.filter_cons_of_neg hk, ih _ hrest]
      have hno : ¬ mapGet (stackTags st) "type" = "app" :=
        fun h => hk (hkeep st (List.mem_cons_self _ _) h)
      conv_rhs => unfold usedLoop
      simp only [hno, if_false]

theorem issueBlocks_fresh (vpc : String) (n : Nat) (listing : List Stack) (x : String)
    (hx : x ∈ issueBlocks vpc n listing) : ¬ Reserved listing x := by
  induction n generalizing listing with
  | zero => simp [issueBlocks] at hx
  | succ n ih =>
    rcases nextAvailableSubnet_cases vpc listing with ⟨i, _, _, h3, _, h5⟩ | ⟨_, h5⟩
    · simp only [issueBlocks, h5, List.mem_cons] at hx
      rcases hx with rfl | hx
      · exact h3
      · intro hres
        apply ih _ hx
        have := (reserved_insert listing [] (appStack (candidate i)) x).2
        simp only [List.append_nil] at this
        exact this (Or.inl hres)
    · simp [issueBlocks, h5] at hx

theorem issueBlocks_nodup (vpc : String) (n : Nat) (listing : List Stack) :
    (issueBlocks vpc n listing).Nodup := by
  induction n generalizing listing with
  | zero => simp [issueBlocks]
  | succ n ih =>
    rcases nextAvailableSubnet_cases vpc listing with ⟨i, _, _, _, _, h5⟩ | ⟨_, h5⟩
    · simp only [issueBlocks, h5, List.nodup_cons]
      refine ⟨?_, ih _⟩
      intro hmem
      apply issueBlocks_fresh _ _ _ _ hmem
      have := (reserved_insert listing [] (appStack (candidate i)) (candidate i)).2
      simp only [List.append_nil] at this
      exact this (Or.inr (tagOf_appStack _))
    · simp [issueBlocks, h5]

/-- C6: if every `type=app` stack of the listing carries a subnet tag in the canonical
form `a.b.c.0/24` (decimal octets without padding), then a block the allocator returns
is a well-formed block whose address range is disjoint from the range of every block
reserved by a `type=app` stack of the listing. -/
theorem nextAvailableSubnet_disjoint (vpc : String) (listing : List Stack) (r : String)
    (hcanon : ∀ s ∈ listing, tagOf s "type" = "app" →
      ∃ a b c, a < 256 ∧ b < 256 ∧ c < 256 ∧ tagOf s "subnet" = Block.render ⟨a, b, c, 0, 24⟩)
    (hret : nextAvailableSubnet vpc (.ok listing) = (r, none)) :
    ∃ R, parseBlock r = some R ∧
      ∀ s ∈ listing, tagOf s "type" = "app" →
        ∃ S, parseBlock (tagOf s "subnet") = some S ∧ R.Disjoint S := by
  obtain ⟨i, i1, i2, rfl, hfree, _⟩ := nextAvailableSubnet_ok vpc listing r hret
  refine ⟨⟨10, 0, i, 0, 24⟩, parseBlock_candidate i (by omega), ?_⟩
  intro s hs happ
  obtain ⟨a, b, c, ha, hb, hc, hsub⟩ := hcanon s hs happ
  refine ⟨⟨a, b, c, 0, 24⟩, ?_, ?_⟩
  · rw [hsub]
    exact parseBlock_render _ ha hb hc (by simp) (by simp)
  · apply block24_disjoint _ _ _ _ _ _ (by omega) (by omega) hb hc
    rintro ⟨rfl, rfl, rfl⟩
    apply hfree
    refine ⟨s, hs, happ, ?_⟩
    rw [hsub, candidate_eq_render]

theorem nextAvailableSubnet_disjoint_witness :
    ∃ R, parseBlock "10.0.2.0/24" = some R ∧
      ∀ s ∈ [appStack "10.0.1.0/24", appStack "192.168.7.0/24"], tagOf s "type" = "app" →
        ∃ S, parseBlock (tagOf s "subnet") = some S ∧ R.Disjoint S :=
  nextAvailableSubnet_disjoint "10.0.0.0/16"
    [appStack "10.0.1.0/24", appStack "192.168.7.0/24"] "10.0.2.0/24"
    (by
      intro s hs _
      rcases List.mem_cons.1 hs with rfl | hs
      · exact ⟨10, 0, 1, by decide, by decide, by decide, by decide⟩
      · rcases List.mem_cons.1 hs with rfl | hs
        · exact ⟨192, 168, 7, by decide, by decide, by decide, by decide⟩
        · exact absurd hs (List.not_mem_nil _))
    (by decide)

/-- C7: if the allocator returns `a` on a listing, then on the listing extended with a
`type=app` stack tagged `subnet=a` it does not return `a`: it fails as exhausted or
returns a candidate whose third octet is strictly greater than that of `a`.  Hence the
blocks issued by a run of allocate-then-provision steps are pairwise distinct. -/
theorem nextAvailableSubnet_fresh :
    (∀ (vpc : String) (front back : List Stack) (s : Stack) (a : String),
      nextAvailableSubnet vpc (.ok (front ++ back)) = (a, none) →
      tagOf s "type" = "app" → tagOf s "subnet" = a →
      (nextAvailableSubnet vpc (.ok (front ++ s :: back))).1 ≠ a ∧
      ∃ i, 1 ≤ i ∧ i ≤ 254 ∧ parseBlock a = some ⟨10, 0, i, 0, 24⟩ ∧
        (nextAvailableSubnet vpc (.ok (front ++ s :: back))
            = ("", some "no available subnets") ∨
         ∃ k r, i < k ∧ k ≤ 254 ∧
          nextAvailableSubnet vpc (.ok (front ++ s :: back)) = (r, none) ∧
          parseBlock r = some ⟨10, 0, k, 0, 24⟩)) ∧
    (∀ (vpc : String) (n : Nat) (listing : List Stack), (issueBlocks vpc n listing).Nodup) := by
  refine ⟨?_, issueBlocks_nodup⟩
  intro vpc front back s a hret htype hsub
  obtain ⟨i, i1, i2, rfl, hfree, hbelow⟩ := nextAvailableSubnet_ok vpc _ _ hret
  have hparse := parseBlock_candidate i (by omega)
  have hres : Reserved (front ++ s :: back) (candidate i) :=
    (reserved_insert _ _ _ _).2 (Or.inr ⟨htype, hsub⟩)
  rcases nextAvailableSubnet_cases vpc (front ++ s :: back) with
    ⟨k, k1, k2, k3, _, k5⟩ | ⟨_, k5⟩
  · have hik : i < k := by
      by_contra hle
      rcases Nat.lt_or_eq_of_le (Nat.le_of_not_lt hle) with hlt | heq
      · exact k3 ((reserved_insert _ _ _ _).2 (Or.inl (hbelow k k1 hlt)))
      · rw [heq] at k3
        exact k3 hres
    refine ⟨?_, i, i1, i2, hparse, Or.inr ⟨k, _, hik, k2, k5, parseBlock_candidate k (by omega)⟩⟩
    rw [k5]
    intro heq
    apply k3
    rw [show candidate k = candidate i from heq]
    exact hres
  · refine ⟨?_, i, i1, i2, hparse, Or.inl k5⟩
    rw [k5]
    intro heq
    have h0 : parseBlock "" = none := by decide
    rw [← show ("" : String) = candidate i from heq, h0] at hparse
    exact absurd hparse (by simp)

theorem nextAvailableSubnet_fresh_witness :
    nextAvailableSubnet "10.0.0.0/16" (.ok ([appStack "10.0.1.0/24", appStack "10.0.2.0/24",
        appStack "10.0.3.0/24", appStack "10.0.4.0/24"] ++ [])) = ("10.0.5.0/24", none) ∧
    nextAvailableSubnet "10.0.0.0/16" (.ok ([appStack "10.0.1.0/24", appStack "10.0.2.0/24",
        appStack "10.0.3.0/24", appStack "10.0.4.0/24"] ++ appStack "10.0.5.0/24" :: []))
      = ("10.0.6.0/24", none) ∧
    (nextAvailableSubnet "10.0.0.0/16" (.ok ([appStack "10.0.1.0/24", appStack "10.0.2.0/24",
        appStack "10.0.3.0/24", appStack "10.0.4.0/24"] ++ appStack "10.0.5.0/24" :: []))).1
      ≠ "10.0.5.0/24" ∧
    issueBlocks "10.0.0.0/16" 2 [appStack "10.0.1.0/24", appStack "10.0.2.0/24",
        appStack "10.0.3.0/24", appStack "10.0.4.0/24"] = ["10.0.5.0/24", "10.0.6.0/24"] :=
  ⟨by decide, by decide,
   (nextAvailableSubnet_fresh.1 "10.0.0.0/16" [appStack "10.0.1.0/24", appStack "10.0.2.0/24",
        appStack "10.0.3.0/24", appStack "10.0.4.0/24"] [] (appStack "10.0.5.0/24")
        "10.0.5.0/24" (by decide) (by decide) (by decide)).1,
   by decide⟩

/-- C8: stacks whose `type` tag is not exactly `app` (stacks without a `type` tag
included) do not affect the allocator: dropping any of them from the listing leaves
the result unchanged, whatever `subnet` tag they carry. -/
theorem nextAvailableSubnet_ignores (vpc : String) (listing : List Stack) (keep : Stack → Bool)
    (hkeep : ∀ s ∈ listing, tagOf s "type" = "app" → keep s = true) :
    nextAvailableSubnet vpc (.ok (listing.filter keep)) =
      nextAvailableSubnet vpc (.ok listing) := by
  unfold nextAvailableSubnet
  simp only [usedLoop_filter keep listing [] hkeep]

theorem nextAvailableSubnet_ignores_witness :
    nextAvailableSubnet "10.0.0.0/16" (.ok [appStack "10.0.2.0/24"]) =
      nextAvailableSubnet "10.0.0.0/16" (.ok [⟨[⟨"type", "web"⟩, ⟨"subnet", "10.0.1.0/24"⟩]⟩,
        ⟨[⟨"subnet", "10.0.1.0/24"⟩]⟩, ⟨[⟨"type", "APP"⟩, ⟨"subnet", "10.0.1.0/24"⟩]⟩,
        appStack "10.0.2.0/24"]) ∧
    nextAvailableSubnet "10.0.0.0/16" (.ok [appStack "10.0.2.0/24"]) = ("10.0.1.0/24", none) :=
  ⟨nextAvailableSubnet_ignores "10.0.0.0/16" [⟨[⟨"type", "web"⟩, ⟨"subnet", "10.0.1.0/24"⟩]⟩,
        ⟨[⟨"subnet", "10.0.1.0/24"⟩]⟩, ⟨[⟨"type", "APP"⟩, ⟨"subnet", "10.0.1.0/24"⟩]⟩,
        appStack "10.0.2.0/24"] (fun s => decide (tagOf s "type" = "app"))
      (fun s _ h => decide_eq_true h),
   by decide⟩

/-! ### Malformed bases, determinism, error propagation -/

/-- The result of `divideSubnet` as a function of the count and of the dot-separated
parts of the base. -/
theorem divideSubnet_closed_form (base : String) (n : Int) :
    divideSubnet base n =
      if n > 4 then .ret (none, some "too many divisions")
      else if n < 0 then .panic "makeslice: len out of range"
      else if n = 0 then .ret (some [], none)
      else
        match stringsSplit base '.' with
        | p0 :: p1 :: p2 :: _ =>
          .ret (some ((List.range n.toNat).map fun i => sprintfSub p0 p1 p2 (i * 32)), none)
        | _ => .panic "index out of range" := by
  by_cases hgt : n > 4
  · simp [divideSubnet, hgt]
  by_cases hlt : n < 0
  · simp [divideSubnet, hgt, hlt]
  by_cases hz : n = 0
  · subst hz
    simp [divideSubnet, divideLoop]
  rw [if_neg hgt, if_neg hlt, if_neg hz]
  have h0 : 0 ≤ n := by omega
  have h4 : n ≤ 4 := by omega
  cases hp : stringsSplit base '.' with
  | nil =>
    obtain ⟨k, hk⟩ : ∃ k, n.toNat = k + 1 := ⟨n.toNat - 1, by omega⟩
    simp [divideSubnet, hgt, hlt, hp, hk, divideLoop]
  | cons p0 t0 =>
    cases t0 with
    | nil =>
      obtain ⟨k, hk⟩ : ∃ k, n.toNat = k + 1 := ⟨n.toNat - 1, by omega⟩
      simp [divideSubnet, hgt, hlt, hp, hk, divideLoop]
    | cons p1 t1 =>
      cases t1 with
      | nil =>
        obtain ⟨k, hk⟩ : ∃ k, n.toNat = k + 1 := ⟨n.toNat - 1, by omega⟩
        simp [divideSubnet, hgt, hlt, hp, hk, divideLoop]
      | cons p2 t2 => exact divideSubnet_parts base n p0 p1 p2 t2 hp h0 h4

/-- C11: on a base with fewer than three dot-separated components and a count from 1
to 4, `divideSubnet` does not return an error value: the first loop iteration indexes
`parts` out of range and the call panics. -/
theorem divideSubnet_short_base (base : String) (n : Int)
    (hshort : (stringsSplit base '.').length < 3) (h1 : 1 ≤ n) (h4 : n ≤ 4) :
    divideSubnet base n = .panic "index out of range" := by
  rw [divideSubnet_closed_form]
  have hgt : ¬ n > 4 := by omega
  have hlt : ¬ n < 0 := by omega
  have hz : ¬ n = 0 := by omega
  rw [if_neg hgt, if_neg hlt, if_neg hz]
  cases hp : stringsSplit base '.' with
  | nil => rfl
  | cons p0 t0 =>
    cases t0 with
    | nil => rfl
    | cons p1 t1 =>
      cases t1 with
      | nil => rfl
      | cons p2 t2 =>
        rw [hp] at hshort
        simp only [List.length_cons] at hshort
        omega

theorem divideSubnet_short_base_witness :
    divideSubnet "10.0" 1 = .panic "index out of range" ∧
    divideSubnet "x.y.z" 1 = .ret (some ["x.y.z.0/27"], none) :=
  ⟨divideSubnet_short_base "10.0" 1 (by decide) (by decide) (by decide), by decide⟩

theorem goIndex_some (xs : List String) (i : Nat) (x : String) (h : xs.get? i = some x) :
    goIndex xs i = GoM.done x := by
  unfold goIndex
  rw [h]

theorem goIndex_none (xs : List String) (i : Nat) (h : xs.get? i = none) :
    goIndex xs i = GoM.fail "index out of range" := by
  unfold goIndex
  rw [h]

theorem andThen_done {α β : Type} (a : α) (f : α → GoM β) (w : World) :
    GoM.andThen (GoM.done a) f w = f a w := rfl

theorem andThen_fail {α β : Type} (msg : String) (f : α → GoM β) (w : World) :
    GoM.andThen (GoM.fail msg) f w = (.panic msg, w) := rfl

theorem divideLoopM_run (parts : List String) (todo i : Nat) (div : List String) (w : World) :
    divideLoopM parts todo i div w = (divideLoop parts todo i div, w) := by
  induction todo generalizing i div with
  | zero => rfl
  | succ todo ih =>
    unfold divideLoopM divideLoop
    cases h0 : parts.get? 0 with
    | none => rw [goIndex_none _ _ h0, andThen_fail]
    | some p0 =>
      rw [goIndex_some _ _ _ h0, andThen_done]
      cases h1 : parts.get? 1 with
      | none => rw [goIndex_none _ _ h1, andThen_fail]
      | some p1 =>
        rw [goIndex_some _ _ _ h1, andThen_done]
        cases h2 : parts.get? 2 with
        | none => rw [goIndex_none _ _ h2, andThen_fail]
        | some p2 =>
          rw [goIndex_some _ _ _ h2, andThen_done]
          exact ih _ _

/-- Independence of the package state is not true of every function of the package:
`humanStatus` changes the world on an unknown code, and `nextAvailableSubnet` returns
different results in worlds whose remote listings differ. -/
theorem siblings_use_state :
    (humanStatusM "REVIEW_IN_PROGRESS" ⟨"", .ok []⟩).2 ≠ ⟨"", .ok []⟩ ∧
    (nextAvailableSubnetM "10.0.0.0/16" ⟨"", .ok []⟩).1 ≠
      (nextAvailableSubnetM "10.0.0.0/16" ⟨"", .ok [appStack "10.0.1.0/24"]⟩).1 := by
  constructor
  · intro h
    have hs := congrArg World.stdout h
    revert hs
    decide
  · decide

/-- C15: `divideSubnet` is deterministic and touches no state.  Run against any two
states of the package with the same base and count it gives the same outcome (the
same slice, the same error or the same panic); it leaves the state as it found it; a
second call after the first gives the same outcome again; and the outcome is the
function `divideSubnet` of the two arguments alone. -/
theorem divideSubnet_deterministic (base : String) (num : Int) (w₁ w₂ : World) :
    (divideSubnetM base num w₁).1 = (divideSubnetM base num w₂).1 ∧
    (divideSubnetM base num w₁).2 = w₁ ∧
    (divideSubnetM base num (divideSubnetM base num w₁).2).1 = (divideSubnetM base num w₁).1 ∧
    (divideSubnetM base num w₁).1 = divideSubnet base num := by
  have hrun : ∀ w : World, divideSubnetM base num w = (divideSubnet base num, w) := by
    intro w
    unfold divideSubnetM divideSubnet
    by_cases hgt : num > 4
    · rw [if_pos hgt, if_pos hgt]
      rfl
    · rw [if_neg hgt, if_neg hgt]
      by_cases hlt : num < 0
      · rw [if_pos hlt]
        unfold goMake
        rw [if_pos hlt, andThen_fail]
      · rw [if_neg hlt]
        unfold goMake
        rw [if_neg hlt, andThen_done]
        show GoM.andThen (divideLoopM (stringsSplit base '.') num.toNat 0
          (List.replicate num.toNat "")) (fun div => GoM.done (some div, none)) w = _
        unfold GoM.andThen
        rw [divideLoopM_run]
        cases hloop : divideLoop (stringsSplit base '.') num.toNat 0
            (List.replicate num.toNat "") with
        | ret div => simp only [hloop, GoM.done]
        | panic msg => simp only [hloop]
  refine ⟨?_, ?_, ?_, ?_⟩
  · rw [hrun w₁, hrun w₂]
  · rw [hrun w₁]
  · rw [hrun w₁, hrun w₁]
  · rw [hrun w₁]

theorem candidate_ne_empty (i : Nat) : candidate i ≠ "" := by
  intro h
  have hlen := congrArg String.length h
  simp only [candidate, String.length_append] at hlen
  have h5 : ("10.0." : String).length = 5 := by decide
  have h0 : ("" : String).length = 0 := by decide
  omega

/-- C14: when the listing fails, `nextAvailableSubnet` returns the listing error
unchanged with the empty string, which is no candidate; when the listing succeeds, the
only error it returns is `no available subnets`, again with the empty string. -/
theorem nextAvailableSubnet_errors (vpc : String) :
    (∀ err : GoError, nextAvailableSubnet vpc (.error err) = ("", some err)) ∧
    (∀ i, candidate i ≠ "") ∧
    (∀ (listing : List Stack) (e : GoError),
      (nextAvailableSubnet vpc (.ok listing)).2 = some e →
      e = "no available subnets" ∧ (nextAvailableSubnet vpc (.ok listing)).1 = "") := by
  refine ⟨fun err => rfl, candidate_ne_empty, ?_⟩
  intro listing e he
  rcases nextAvailableSubnet_cases vpc listing with ⟨i, _, _, _, _, h5⟩ | ⟨_, h5⟩
  · rw [h5] at he
    exact absurd he (by simp)
  · rw [h5] at he ⊢
    simp only [Option.some.injEq] at he
    exact ⟨he.symm, rfl⟩

theorem nextAvailableSubnet_errors_witness :
    nextAvailableSubnet "10.0.0.0/16" (.error "RequestLimitExceeded")
      = ("", some "RequestLimitExceeded") :=
  (nextAvailableSubnet_errors "10.0.0.0/16").1 "RequestLimitExceeded"

/-- C16: `humanStatus` prints exactly when the raw code is unrecognised: off the twelve
documented codes it prints `unknown status: <code>` and a newline and returns
`unknown`; on each of the twelve codes it prints nothing. -/
theorem humanStatus_report (original : String) :
    (original ∉ documentedCodes →
      humanStatus original = ⟨"unknown", "unknown status: " ++ original ++ "\n"⟩) ∧
    (original ∈ documentedCodes → (humanStatus original).stdout = "") ∧
    ((humanStatus original).stdout ≠ "" ↔ original ∉ documentedCodes) := by
  have hin : original ∈ documentedCodes → (humanStatus original).stdout = "" := by
    intro h
    rcases mem_documentedCodes h with
      h | h | h | h | h | h | h | h | h | h | h | h <;> subst h <;> decide
  have hout : original ∉ documentedCodes → (humanStatus original).stdout ≠ "" := by
    intro h hs
    rw [humanStatus_of_not_mem h] at hs
    have hlen := congrArg String.length hs
    simp only [String.length_append] at hlen
    have h16 : ("unknown status: " : String).length = 16 := by decide
    have h0 : ("" : String).length = 0 := by decide
    omega
  refine ⟨humanStatus_of_not_mem, hin, ?_⟩
  constructor
  · intro hne hmem
    exact hne (hin hmem)
  · exact hout

theorem humanStatus_report_witness :
    humanStatus "REVIEW_IN_PROGRESS" = ⟨"unknown", "unknown status: REVIEW_IN_PROGRESS\n"⟩ ∧
    (humanStatus "UPDATE_COMPLETE").stdout = "" :=
  ⟨(humanStatus_report "REVIEW_IN_PROGRESS").1 (by decide),
   (humanStatus_report "UPDATE_COMPLETE").2.1 (by decide)⟩

/-- C18: the result of `nextAvailableSubnet` is the same for every two `vpc`
arguments, and every block it returns is `10.0.c.0/24` with `1 ≤ c ≤ 254`. -/
theorem nextAvailableSubnet_vpc_irrelevant (vpc₁ vpc₂ : String)
    (described : Except GoError (List Stack)) :
    nextAvailableSubnet vpc₁ described = nextAvailableSubnet vpc₂ described ∧
    ∀ r, nextAvailableSubnet vpc₁ described = (r, none) →
      ∃ c, 1 ≤ c ∧ c ≤ 254 ∧ r = "10.0." ++ fmtInt c ++ ".0/24" ∧
        parseBlock r = some ⟨10, 0, c, 0, 24⟩ := by
  refine ⟨rfl, ?_⟩
  intro r hr
  cases described with
  | error err => exact absurd (congrArg Prod.snd hr) (by simp [nextAvailableSubnet])
  | ok listing =>
    obtain ⟨i, i1, i2, rfl, _, _⟩ := nextAvailableSubnet_ok vpc₁ listing r hr
    exact ⟨i, i1, i2, rfl, parseBlock_candidate i (by omega)⟩

theorem nextAvailableSubnet_vpc_irrelevant_witness :
    nextAvailableSubnet "10.0.0.0/16" (.ok [appStack "10.0.1.0/24"]) =
      nextAvailableSubnet "172.16.0.0/12" (.ok [appStack "10.0.1.0/24"]) ∧
    nextAvailableSubnet "172.16.0.0/12" (.ok [appStack "10.0.1.0/24"]) = ("10.0.2.0/24", none) :=
  ⟨(nextAvailableSubnet_vpc_irrelevant "10.0.0.0/16" "172.16.0.0/12"
      (.ok [appStack "10.0.1.0/24"])).1, by decide⟩


/-! ### Maps built from tag lists -/

theorem mapFind_mapSet (m : GoMap) (k v k' : String) :
    mapFind (mapSet m k v) k' = if k = k' then some v else mapFind m k' := by
  induction m with
  | nil => simp [mapSet, mapFind]
  | cons e m ih =>
    obtain ⟨k0, v0⟩ := e
    by_cases h0 : k0 = k
    · subst h0
      by_cases h1 : k0 = k' <;> simp [mapSet, mapFind, h1]
    · by_cases h1 : k0 = k'
      · subst h1
        have h2 : ¬ k = k0 := fun h => h0 h.symm
        simp [mapSet, mapFind, h0, h2]
      · simp [mapSet, mapFind, h0, h1, ih]

theorem mapGet_eq_mapFind (m : GoMap) (k : String) : mapGet m k = (mapFind m k).getD "" := by
  induction m with
  | nil => rfl
  | cons e m ih =>
    obtain ⟨k0, v0⟩ := e
    by_cases h0 : k0 = k <;> simp [mapGet, mapFind, h0, ih]

theorem mapSet_of_not_mem (m : GoMap) (k v : String) (h : k ∉ mapKeys m) :
    mapSet m k v = m ++ [(k, v)] := by
  induction m with
  | nil => rfl
  | cons e m ih =>
    obtain ⟨k0, v0⟩ := e
    have h0 : ¬ k0 = k := fun he => h (by simp [mapKeys, he])
    have h1 : k ∉ mapKeys m := fun hm => h (by
      simp only [mapKeys, List.map_cons, List.mem_cons]
      exact Or.inr hm)
    simp [mapSet, h0, ih h1]

theorem mapKeys_mapSet_of_mem (m : GoMap) (k v : String) (h : k ∈ mapKeys m) :
    mapKeys (mapSet m k v) = mapKeys m := by
  induction m with
  | nil => simp [mapKeys] at h
  | cons e m ih =>
    obtain ⟨k0, v0⟩ := e
    by_cases h0 : k0 = k
    · subst h0
      simp [mapSet, mapKeys]
    · have h1 : k ∈ mapKeys m := by
        simp only [mapKeys, List.map_cons, List.mem_cons] at h
        rcases h with h | h
        · exact absurd h.symm h0
        · exact h
      have := ih h1
      simp only [mapKeys] at this
      simp [mapSet, mapKeys, h0, this]

theorem mem_mapKeys_mapSet (m : GoMap) (k v k' : String) :
    k' ∈ mapKeys (mapSet m k v) ↔ k' = k ∨ k' ∈ mapKeys m := by
  by_cases h : k ∈ mapKeys m
  · rw [mapKeys_mapSet_of_mem m k v h]
    constructor
    · exact Or.inr
    · rintro (rfl | h')
      · exact h
      · exact h'
  · rw [mapSet_of_not_mem m k v h]
    simp only [mapKeys, List.map_append, List.map_cons, List.map_nil, List.mem_append,
      List.mem_singleton]
    tauto

theorem mapWF_mapSet (m : GoMap) (k v : String) (h : mapWF m) : mapWF (mapSet m k v) := by
  unfold mapWF at h ⊢
  by_cases hk : k ∈ mapKeys m
  · rw [mapKeys_mapSet_of_mem m k v hk]
    exact h
  · rw [mapSet_of_not_mem m k v hk]
    simp only [mapKeys, List.map_append, List.map_cons, List.map_nil]
    rw [List.nodup_append]
    refine ⟨h, by simp, ?_⟩
    intro a ha hb
    rw [List.mem_singleton] at hb
    subst hb
    exact hk ha

/-- The fold of `flattenTags` and `stackTags`, from an arbitrary starting map. -/
theorem foldTags_find_other (tags : List Tag) (acc : GoMap) (k : String)
    (h : ∀ u ∈ tags, u.Key ≠ k) :
    mapFind (tags.foldl (fun f tag => mapSet f tag.Key tag.Value) acc) k = mapFind acc k := by
  induction tags generalizing acc with
  | nil => rfl
  | cons t rest ih =>
    rw [List.foldl_cons, ih _ (fun u hu => h u (List.mem_cons_of_mem _ hu)), mapFind_mapSet]
    rw [if_neg (h t (List.mem_cons_self _ _))]

theorem foldTags_find_last (pre post : List Tag) (t : Tag) (acc : GoMap)
    (h : ∀ u ∈ post, u.Key ≠ t.Key) :
    mapFind ((pre ++ t :: post).foldl (fun f tag => mapSet f tag.Key tag.Value) acc) t.Key
      = some t.Value := by
  rw [List.foldl_append, List.foldl_cons, foldTags_find_other post _ _ h, mapFind_mapSet]
  simp

theorem foldTags_keys (tags : List Tag) (acc : GoMap) (k : String) :
    k ∈ mapKeys (tags.foldl (fun f tag => mapSet f tag.Key tag.Value) acc) ↔
      k ∈ mapKeys acc ∨ ∃ t ∈ tags, t.Key = k := by
  induction tags generalizing acc with
  | nil => simp
  | cons t rest ih =>
    rw [List.foldl_cons, ih, mem_mapKeys_mapSet]
    constructor
    · rintro ((h | h) | ⟨u, hu, h⟩)
      · exact Or.inr ⟨t, List.mem_cons_self _ _, h.symm⟩
      · exact Or.inl h
      · exact Or.inr ⟨u, List.mem_cons_of_mem _ hu, h⟩
    · rintro (h | ⟨u, hu, h⟩)
      · exact Or.inl (Or.inr h)
      · rcases List.mem_cons.1 hu with rfl | hu
        · exact Or.inl (Or.inl h.symm)
        · exact Or.inr ⟨u, hu, h⟩

theorem foldTags_wf (tags : List Tag) (acc : GoMap) (h : mapWF acc) :
    mapWF (tags.foldl (fun f tag => mapSet f tag.Key tag.Value) acc) := by
  induction tags generalizing acc with
  | nil => exact h
  | cons t rest ih =>
    rw [List.foldl_cons]
    exact ih _ (mapWF_mapSet _ _ _ h)

/-- Folding the entries of a map back into a map rebuilds it entry by entry. -/
theorem foldTags_entries (m acc : GoMap) (hm : mapWF m)
    (hdis : ∀ k ∈ mapKeys m, k ∉ mapKeys acc) :
    (m.map fun kv => (⟨kv.1, kv.2⟩ : Tag)).foldl (fun f tag => mapSet f tag.Key tag.Value) acc
      = acc ++ m := by
  induction m generalizing acc with
  | nil => simp
  | cons e m ih =>
    obtain ⟨k, v⟩ := e
    have hk : k ∉ mapKeys acc := hdis k (by simp [mapKeys])
    have hnodup : k ∉ mapKeys m ∧ mapWF m := by
      unfold mapWF mapKeys at hm
      simp only [List.map_cons, List.nodup_cons] at hm
      exact hm
    rw [List.map_cons, List.foldl_cons]
    simp only []
    rw [mapSet_of_not_mem acc k v hk, ih _ hnodup.2]
    · simp
    · intro k' hk' hmem
      simp only [mapKeys, List.map_append, List.map_cons, List.map_nil, List.mem_append,
        List.mem_singleton] at hmem
      rcases hmem with hmem | rfl
      · exact hdis k' (by
          simp only [mapKeys, List.map_cons, List.mem_cons]
          exact Or.inr hk') hmem
      · exact hnodup.1 hk'

/-- C20: for every list of tags `flattenTags` and `stackTags` build the same map; its
keys are exactly the keys occurring in the list, no key has two entries, and a key is
mapped to the value of the last entry of the list that carries it. -/
theorem flattenTags_stackTags (tags : List Tag) :
    flattenTags tags = stackTags ⟨tags⟩ ∧
    mapWF (flattenTags tags) ∧
    (∀ k, k ∈ mapKeys (flattenTags tags) ↔ ∃ t ∈ tags, t.Key = k) ∧
    (∀ (pre post : List Tag) (t : Tag), tags = pre ++ t :: post →
      (∀ u ∈ post, u.Key ≠ t.Key) →
      mapFind (flattenTags tags) t.Key = some t.Value ∧
      mapGet (flattenTags tags) t.Key = t.Value) := by
  refine ⟨rfl, ?_, ?_, ?_⟩
  · exact foldTags_wf tags [] (by simp [mapWF, mapKeys])
  · intro k
    unfold flattenTags
    rw [foldTags_keys]
    simp [mapKeys]
  · intro pre post t htags hlast
    have hfind : mapFind (flattenTags tags) t.Key = some t.Value := by
      unfold flattenTags
      rw [htags]
      exact foldTags_find_last pre post t [] hlast
    refine ⟨hfind, ?_⟩
    rw [mapGet_eq_mapFind, hfind]
    rfl

theorem flattenTags_stackTags_witness :
    flattenTags [⟨"type", "web"⟩, ⟨"subnet", "10.0.1.0/24"⟩, ⟨"type", "app"⟩]
      = [("type", "app"), ("subnet", "10.0.1.0/24")] ∧
    mapFind (flattenTags ([⟨"type", "web"⟩, ⟨"subnet", "10.0.1.0/24"⟩] ++ ⟨"type", "app"⟩ :: []))
      (Tag.mk "type" "app").Key = some "app" :=
  ⟨by decide,
   ((flattenTags_stackTags
      ([⟨"type", "web"⟩, ⟨"subnet", "10.0.1.0/24"⟩] ++ ⟨"type", "app"⟩ :: [])).2.2.2
      [⟨"type", "web"⟩, ⟨"subnet", "10.0.1.0/24"⟩] [] ⟨"type", "app"⟩ rfl
      (fun u hu => absurd hu (List.not_mem_nil u))).1⟩

theorem foldl_parameters (m : GoMap) (sp : CreateStackParams) :
    m.foldl (fun sp kv => { sp with Parameters := sp.Parameters ++ [⟨kv.1, kv.2⟩] }) sp
      = { sp with Parameters := sp.Parameters ++ m.map fun kv => ⟨kv.1, kv.2⟩ } := by
  induction m generalizing sp with
  | nil => simp
  | cons e m ih => simp [ih]

theorem foldl_tags (m : GoMap) (sp : CreateStackParams) :
    m.foldl (fun sp kv => { sp with Tags := sp.Tags ++ [⟨kv.1, kv.2⟩] }) sp
      = { sp with Tags := sp.Tags ++ m.map fun kv => ⟨kv.1, kv.2⟩ } := by
  induction m generalizing sp with
  | nil => simp
  | cons e m ih => simp [ih]

/-- C12: `createStack` hands exactly one request to the remote service.  Its
`StackName` is the name and its `TemplateBody` the formation; its `Parameters` are
the entries of the parameter map, one `(key, value)` each and nothing else; its `Tags`
are the entries of the tag map likewise, so `flattenTags` of them is the tag map.  The
error returned is the one the remote call returned. -/
theorem createStack_request (formation name : String) (params tags : GoMap)
    (remote : CreateStackParams → Option GoError) (ht : mapWF tags) :
    ∃ sp, createStack formation name params tags remote = ([sp], remote sp) ∧
      sp.StackName = name ∧ sp.TemplateBody = formation ∧
      sp.Parameters.map (fun p => (p.ParameterKey, p.ParameterValue)) = params ∧
      sp.Tags.map (fun t => (t.Key, t.Value)) = tags ∧
      flattenTags sp.Tags = tags := by
  refine ⟨⟨name, formation, params.map fun kv => ⟨kv.1, kv.2⟩,
    tags.map fun kv => ⟨kv.1, kv.2⟩⟩, ?_, rfl, rfl, ?_, ?_, ?_⟩
  · simp [createStack, foldl_parameters, foldl_tags]
  · simp [List.map_map, Function.comp_def]
  · simp [List.map_map, Function.comp_def]
  · have := foldTags_entries tags [] ht (by simp [mapKeys])
    simpa [flattenTags] using this

theorem createStack_request_witness :
    ∃ sp, createStack "body" "web-1" [("Cluster", "c1"), ("Size", "2")]
        [("type", "app"), ("subnet", "10.0.3.0/24")] (fun _ => some "AlreadyExistsException")
        = ([sp], (fun _ => some "AlreadyExistsException") sp) ∧
      sp.StackName = "web-1" ∧ sp.TemplateBody = "body" ∧
      sp.Parameters.map (fun p => (p.ParameterKey, p.ParameterValue))
        = [("Cluster", "c1"), ("Size", "2")] ∧
      sp.Tags.map (fun t => (t.Key, t.Value)) = [("type", "app"), ("subnet", "10.0.3.0/24")] ∧
      flattenTags sp.Tags = [("type", "app"), ("subnet", "10.0.3.0/24")] :=
  createStack_request "body" "web-1" [("Cluster", "c1"), ("Size", "2")]
    [("type", "app"), ("subnet", "10.0.3.0/24")] (fun _ => some "AlreadyExistsException")
    (by decide)

/-- C13: `CreateS3` renders the template `service/<Type>`, section `service`.  If the
renderer returns an error, `CreateS3` returns that error with a nil request; if not,
it returns no error and a request whose `StackName` is the stack name of the service
and whose `TemplateBody` is the rendered text. -/
theorem CreateS3_result {σ : Type} (typeOf stackName : σ → String)
    (buildTemplate : String → String → Option Unit → String × Option GoError) (s : σ) :
    (∀ formation err,
      buildTemplate ("service/" ++ typeOf s) "service" none = (formation, some err) →
      Service.CreateS3 typeOf stackName buildTemplate s = (none, some err)) ∧
    (∀ formation,
      buildTemplate ("service/" ++ typeOf s) "service" none = (formation, none) →
      Service.CreateS3 typeOf stackName buildTemplate s
        = (some ⟨some (stackName s), some formation⟩, none)) := by
  constructor
  · intro formation err h
    simp [Service.CreateS3, h]
  · intro formation h
    simp [Service.CreateS3, h]

theorem CreateS3_result_witness :
    Service.CreateS3 (fun s : String × String => s.1) (fun s => "convox-" ++ s.2)
        (fun name _ _ => if name = "service/s3" then ("rendered", none) else ("", some "no template"))
        ("s3", "assets")
      = (some ⟨some "convox-assets", some "rendered"⟩, none) ∧
    Service.CreateS3 (fun s : String × String => s.1) (fun s => "convox-" ++ s.2)
        (fun name _ _ => if name = "service/s3" then ("rendered", none) else ("", some "no template"))
        ("redis", "cache")
      = (none, some "no template") :=
  ⟨(CreateS3_result (fun s : String × String => s.1) (fun s => "convox-" ++ s.2)
      (fun name _ _ => if name = "service/s3" then ("rendered", none) else ("", some "no template"))
      ("s3", "assets")).2 "rendered" (by decide),
   (CreateS3_result (fun s : String × String => s.1) (fun s => "convox-" ++ s.2)
      (fun name _ _ => if name = "service/s3" then ("rendered", none) else ("", some "no template"))
      ("redis", "cache")).1 "" "no template" (by decide)⟩

/-! ### `upperName` -/

/-- C17, for names that start with an ASCII byte: `upperName` returns the name with
that first byte upper-cased (`a..z` to `A..Z`, any other ASCII byte kept) and every
later byte unchanged, so the length is preserved, and applying `upperName` to the
result returns the result. -/
theorem upperName_ascii (nonAscii : Nat → GoBytes) (b : Nat) (rest : GoBytes) (hb : b < 128) :
    upperName nonAscii (b :: rest)
      = .ret ((if 97 ≤ b ∧ b ≤ 122 then b - 32 else b) :: rest) ∧
    (∀ out, upperName nonAscii (b :: rest) = .ret out →
      out.length = (b :: rest).length ∧ upperName nonAscii out = .ret out) := by
  have hfirst : upperName nonAscii (b :: rest)
      = .ret ((if 97 ≤ b ∧ b ≤ 122 then b - 32 else b) :: rest) := by
    unfold upperName toUpperByte
    by_cases hl : 97 ≤ b ∧ b ≤ 122
    · simp [hl]
    · simp [hl, hb]
  refine ⟨hfirst, ?_⟩
  intro out hout
  rw [hfirst] at hout
  have hout2 : (if 97 ≤ b ∧ b ≤ 122 then b - 32 else b) :: rest = out := by
    simpa using hout
  subst hout2
  refine ⟨by simp, ?_⟩
  have hc : ∀ c : Nat, ¬ (97 ≤ c ∧ c ≤ 122) → c < 128 →
      upperName nonAscii (c :: rest) = .ret (c :: rest) := by
    intro c h1 h2
    show Outcome.ret (toUpperByte nonAscii c ++ rest) = _
    unfold toUpperByte
    rw [if_neg h1, if_pos h2]
    rfl
  by_cases hl : 97 ≤ b ∧ b ≤ 122
  · rw [if_pos hl]
    exact hc _ (by omega) (by omega)
  · rw [if_neg hl]
    exact hc _ hl hb

theorem upperName_ascii_witness :
    upperName replaceInvalid (bytesOf "web") = .ret (bytesOf "Web") ∧
    (∀ out, upperName replaceInvalid (119 :: [101, 98]) = .ret out →
      out.length = (119 :: [101, 98]).length ∧ upperName replaceInvalid out = .ret out) :=
  ⟨by decide, (upperName_ascii replaceInvalid 119 [101, 98] (by decide)).2⟩

/-- C17, counterexample for a name whose first letter is not ASCII: on the
two bytes `C3 A9` of `é` the result never is `É` (bytes `C3 89`), because the second
byte is kept; where the library replaces the lone byte `C3` by U+FFFD the result has 4
bytes, and a second application gives 6 bytes. -/
theorem upperName_non_ascii :
    bytesOf "é" = [195, 169] ∧ bytesOf "É" = [195, 137] ∧
    upperName replaceInvalid (bytesOf "é") = .ret [239, 191, 189, 169] ∧
    upperName replaceInvalid [239, 191, 189, 169] = .ret [239, 191, 189, 191, 189, 169] ∧
    upperName keepInvalid (bytesOf "é") = .ret (bytesOf "é") ∧
    (∀ nonAscii, upperName nonAscii (bytesOf "é") ≠ .ret (bytesOf "É")) := by
  refine ⟨by decide, by decide, by decide, by decide, by decide, ?_⟩
  intro nonAscii h
  have h1 : bytesOf "é" = [195, 169] := by decide
  have h2 : bytesOf "É" = [195, 137] := by decide
  rw [h1, h2] at h
  simp only [upperName, toUpperByte, Outcome.ret.injEq] at h
  have hlast := congrArg List.getLast? h
  simp at hlast

/-- C19: on the empty string `upperName`, and the template helper `upper` that calls
it, panic on the slice `name[0:1]`; on every non-empty string they return a string. -/
theorem upperName_defined (nonAscii : Nat → GoBytes) :
    upperName nonAscii [] = .panic "slice bounds out of range [:1] with length 0" ∧
    templateUpper nonAscii [] = .panic "slice bounds out of range [:1] with length 0" ∧
    (∀ name, name ≠ [] →
      ∃ out, upperName nonAscii name = .ret out ∧ templateUpper nonAscii name = .ret out) := by
  refine ⟨rfl, rfl, ?_⟩
  intro name hne
  cases name with
  | nil => exact absurd rfl hne
  | cons b rest => exact ⟨_, rfl, rfl⟩

theorem upperName_defined_witness :
    upperName keepInvalid (bytesOf "") = .panic "slice bounds out of range [:1] with length 0" ∧
    ∃ out, upperName keepInvalid [119, 101, 98] = .ret out ∧
      templateUpper keepInvalid [119, 101, 98] = .ret out :=
  ⟨(upperName_defined keepInvalid).1,
   (upperName_defined keepInvalid).2.2 [119, 101, 98] (by decide)⟩

end Rack
